import Mathlib

set_option maxRecDepth 10000

/-!
Verification of the pattern-reducibility checker.

The development shallowly embeds the Python sources (`dpll.py`, `coloring.py`,
`aux_graph.py`, `utils.py`, `reductor.py`) as executable Lean definitions:

* clauses are finite sets of signed integer literals, a CNF formula is a list
  of clauses, and the recursive DPLL procedure is written with an explicit
  fuel argument (the Python recursion carries no fuel; a sufficiency theorem
  below shows the chosen fuel is never exhausted, which is the termination
  argument for the original recursion);
* the `while` loops of the Python code (unit propagation, pure-literal
  elimination, the reducibility fixed point) likewise take fuel bounded by a
  quantity that strictly decreases at each pass;
* Python dictionaries become association lists or plain functions, Python
  sets become `Finset`s, and the arbitrary element picked by `set.pop()` is
  replaced by a deterministic choice (the head of the `Finset`'s list view);
  every property proved here is independent of that choice;
* a `None` default argument whose methods are accessed (an `AttributeError`
  at run time) is modelled by an `Option`-valued computation returning
  `none`.
-/

/-! ## CNF-SAT and DPLL (`dpll.py`) -/

/-- A clause: a finite set of literals.  A positive integer `n` stands for
the propositional variable `x n`, a negative integer `-n` for its negation
(`CNFSAT.__init__`). -/
abbrev Clause := Finset ℤ

/-- Truth value of a literal under a valuation of the positive variables. -/
def evalLit (v : ℤ → Bool) (l : ℤ) : Bool :=
  if 0 < l then v l else !(v (-l))

/-- The valuation update making `l` true and leaving other variables alone. -/
def setTrue (v : ℤ → Bool) (l : ℤ) : ℤ → Bool :=
  fun x => if x = -l then false else if x = l then true else v x

/-- A clause is satisfied when one of its literals is true. -/
def ClauseSat (v : ℤ → Bool) (cl : Clause) : Prop :=
  ∃ l ∈ cl, evalLit v l = true

/-- Satisfiability of a CNF formula. -/
def Sat (C : List Clause) : Prop :=
  ∃ v : ℤ → Bool, ∀ cl ∈ C, ClauseSat v cl

/-- All literals of the formula: `CNFSAT._literals` (`set().union(*clauses)`). -/
def clauseLits (C : List Clause) : Finset ℤ :=
  C.foldr (fun c acc => c ∪ acc) ∅

/-- All variables (absolute values of literals) of the formula. -/
def clauseVars (C : List Clause) : Finset ℕ :=
  C.foldr (fun c acc => c.image Int.natAbs ∪ acc) ∅

/-- Number of distinct variables of the formula. -/
def varCount (C : List Clause) : ℕ := (clauseVars C).card

/-- Sorted list underlying a multiset of integers, via insertion sort (which,
unlike merge sort, evaluates by kernel reduction). -/
def sortedInts (s : Multiset ℤ) : List ℤ :=
  Quotient.liftOn s (fun l => l.insertionSort (· ≤ ·))
    (fun a b h => List.eq_of_perm_of_sorted
      (((List.perm_insertionSort _ a).trans h).trans (List.perm_insertionSort _ b).symm)
      (List.sorted_insertionSort _ a) (List.sorted_insertionSort _ b))

/-- List view of a clause (used where Python iterates over a set; the order
is deterministic here, while Python's is arbitrary). -/
def litList (c : Finset ℤ) : List ℤ := sortedInts c.val

/-- `CNFSAT._find_unit_literal`: the first clause that is a singleton, if any. -/
def findUnit : List Clause → Option ℤ
  | [] => none
  | c :: rest => if c.card = 1 then some ((litList c).headD 0) else findUnit rest

/-- `CNFSAT._unit_propagate`: drop the clauses containing `l`, remove `-l`
from the remaining ones. -/
def unitPropagate (l : ℤ) (C : List Clause) : List Clause :=
  (C.filter (fun c => l ∉ c)).map (fun c => c.erase (-l))

/-- `CNFSAT._find_pure_literal`: a literal whose negation is absent. -/
def findPure (C : List Clause) : Option ℤ :=
  (litList (clauseLits C)).find? (fun l => decide (-l ∉ clauseLits C))

/-- `CNFSAT._pure_literal_assign`: drop the clauses containing `l`. -/
def pureAssign (l : ℤ) (C : List Clause) : List Clause :=
  C.filter (fun c => l ∉ c)

/-- The unit-propagation `while` loop of `CNFSAT.dpll`.  Each pass removes at
least one clause, so fuel `C.length + 1` always suffices. -/
def propagateGo : ℕ → List Clause → List Clause
  | 0, C => C
  | f + 1, C =>
    match findUnit C with
    | none => C
    | some l => propagateGo f (unitPropagate l C)

/-- Unit propagation run to exhaustion. -/
def propagateAll (C : List Clause) : List Clause :=
  propagateGo (C.length + 1) C

/-- The pure-literal `while` loop of `CNFSAT.dpll`. -/
def pureGo : ℕ → List Clause → List Clause
  | 0, C => C
  | f + 1, C =>
    match findPure C with
    | none => C
    | some l => pureGo f (pureAssign l C)

/-- Pure-literal elimination run to exhaustion. -/
def pureAll (C : List Clause) : List Clause :=
  pureGo (C.length + 1) C

/-- `CNFSAT._choose_literal_rnd`: an arbitrary literal of the formula; the
Python `set.pop()` is replaced by a deterministic pick. -/
def chooseLit (C : List Clause) : ℤ :=
  (litList (clauseLits C)).headD 0

/-- `CNFSAT.dpll` with fuel controlling the branching recursion.  The two
recursive calls receive the simplified clause list extended with `{l}`
(respectively `{-l}`); the Python original protects the second call from the
first by a `deepcopy`, which a pure embedding gets for free. -/
def dpllF : ℕ → List Clause → Option Bool
  | 0, _ => none
  | fuel + 1, C =>
    if C = [] then some true
    else if (∅ : Clause) ∈ C then some false
    else
      let c2 := pureAll (propagateAll C)
      if c2 = [] then some true
      else if (∅ : Clause) ∈ c2 then some false
      else
        let l := chooseLit c2
        match dpllF fuel (c2 ++ [{l}]) with
        | some true => some true
        | some false => dpllF fuel (c2 ++ [{-l}])
        | none => none

/-- Fuel sufficient for `dpllF` (proved below): one more than the number of
variables remaining after the first round of simplifications. -/
def dpllFuel (C : List Clause) : ℕ :=
  varCount (pureAll (propagateAll C)) + 1

/-- `CNFSAT.dpll`: the satisfiability decision. -/
def dpll (C : List Clause) : Bool :=
  (dpllF (dpllFuel C) C).getD false

/-! ## Edge crossing and the NCPQM reducer (`aux_graph.py`) -/

/-- `NCPQMatching._crossing`: the sign-product test. -/
def crossing (e1 e2 : ℤ × ℤ) : Bool :=
  decide ((e1.1 - e2.1) * (e1.1 - e2.2) * (e1.2 - e2.1) * (e1.2 - e2.2) < 0)

/-- `x` lies strictly between `a` and `b`. -/
def StrictlyBetween (a x b : ℤ) : Prop := a < x ∧ x < b

/-- Exactly one endpoint of the second edge lies strictly between the
endpoints of the first. -/
def ExactlyOneBetween (u1 v1 u2 v2 : ℤ) : Prop :=
  (StrictlyBetween u1 u2 v1 ∧ ¬StrictlyBetween u1 v2 v1) ∨
    (¬StrictlyBetween u1 u2 v1 ∧ StrictlyBetween u1 v2 v1)

instance (a x b : ℤ) : Decidable (StrictlyBetween a x b) := by
  unfold StrictlyBetween; infer_instance

instance (u1 v1 u2 v2 : ℤ) : Decidable (ExactlyOneBetween u1 v1 u2 v2) := by
  unfold ExactlyOneBetween; infer_instance

/-- A pseudo-graph: each vertex with its list of neighbours (the Python
`dict[int, set[int]]`; neighbour lists are duplicate-free where the Python
sets are built). -/
abbrev PGraph := List (ℕ × List ℕ)

/-- The canonical edge set of a pseudo-graph, deduplicated
(`NCPQMatching._edges`). -/
def ncEdges (g : PGraph) : List (ℕ × ℕ) :=
  (g.flatMap (fun p => p.2.map (fun v => (min p.1 v, max p.1 v)))).dedup

/-- Largest vertex of the pseudo-graph (`max(self._graph.keys())`; the Python
call fails on an empty graph, where this returns `0`; `_var` is never reached
in that case). -/
def ncMaxKey (g : PGraph) : ℕ :=
  g.foldr (fun p acc => max p.1 acc) 0

/-- `NCPQMatching._var`: integer coding of the edge variable `x {u, v}`. -/
def ncVar (g : PGraph) (u v : ℕ) : ℤ :=
  ((ncMaxKey g + 1) * min u v + max u v : ℕ)

/-- `NCPQMatching._formula`: at-most-one incidence per vertex, at-least-one
incidence per vertex, and one exclusion clause per crossing edge pair. -/
def ncFormula (g : PGraph) : List Clause :=
  g.flatMap (fun p =>
    p.2.flatMap (fun v =>
      p.2.filterMap (fun v2 =>
        if v ≠ v2 then some ({-ncVar g p.1 v, -ncVar g p.1 v2} : Clause) else none)) ++
    [(p.2.map (fun v => ncVar g p.1 v)).toFinset]) ++
  (ncEdges g).flatMap (fun e1 =>
    (ncEdges g).filterMap (fun e2 =>
      if crossing ((e1.1 : ℤ), (e1.2 : ℤ)) ((e2.1 : ℤ), (e2.2 : ℤ)) then
        some ({-ncVar g e1.1 e1.2, -ncVar g e2.1 e2.2} : Clause) else none))

/-- `NCPQMatching.matchable`. -/
def matchable (g : PGraph) : Bool := dpll (ncFormula g)

/-! ## The 3-coloring reducer (`coloring.py`) -/

/-- `ThreeColoration._var`: the variable `x (vertex, color)` coded as
`3 * vertex + color`. -/
def cvar (u c : ℕ) : ℤ := ((3 * u + c : ℕ) : ℤ)

/-- `ThreeColoration.__init__`: the deduplicated edge set of the adjacency
list (the Python set of `frozenset((u, v))`, stored here as ordered pairs
`(min, max)`). -/
def tcEdges (adj : List (List ℕ)) : List (ℕ × ℕ) :=
  ((List.range adj.length).flatMap
    (fun u => (adj.getD u []).map (fun v => (min u v, max u v)))).dedup

/-- The per-vertex clauses of `ThreeColoration._formula`.  A constraint map
is a function `ℕ → ℕ` whose value `0` plays the role of the absent key
(`constraints.get(u, Color.NONE)`). -/
def vertexClauses (constraints : ℕ → ℕ) (u : ℕ) : List Clause :=
  let color := constraints u
  if color ≠ 0 then
    ({cvar u color} : Clause) ::
      (([1, 2, 3].filter (fun c => c ≠ color)).map (fun c => ({-cvar u c} : Clause)))
  else
    [({cvar u 1, cvar u 2, cvar u 3} : Clause),
     ({-cvar u 1, -cvar u 2} : Clause),
     ({-cvar u 1, -cvar u 3} : Clause),
     ({-cvar u 2, -cvar u 3} : Clause)]

/-- The per-edge clauses of `ThreeColoration._formula`. -/
def edgeClauses (e : ℕ × ℕ) : List Clause :=
  [1, 2, 3].map (fun c => ({-cvar e.1 c, -cvar e.2 c} : Clause))

/-- `ThreeColoration._formula`. -/
def tcFormula (adj : List (List ℕ)) (constraints : ℕ → ℕ) : List Clause :=
  (List.range adj.length).flatMap (vertexClauses constraints) ++
    (tcEdges adj).flatMap edgeClauses

/-- `ThreeColoration.colorable`. -/
def colorable (adj : List (List ℕ)) (constraints : ℕ → ℕ) : Bool :=
  dpll (tcFormula adj constraints)

/-- The per-vertex clauses when the constructor was given its default
`constraints = None`: the attribute access `constraints.get` fails, modelled
by `none`. -/
def vertexClausesChecked (oc : Option (ℕ → ℕ)) (u : ℕ) : Option (List Clause) :=
  match oc with
  | none => none
  | some constraints => some (vertexClauses constraints u)

/-- Sequencing of the per-vertex clause constructions, stopping at the first
failure (the Python exception propagates). -/
def seqVertexClauses (oc : Option (ℕ → ℕ)) : List ℕ → Option (List Clause)
  | [] => some []
  | u :: us =>
    match vertexClausesChecked oc u with
    | none => none
    | some cs => (seqVertexClauses oc us).map (fun rest => cs ++ rest)

/-- `ThreeColoration._formula` with the optional constraints argument. -/
def tcFormulaChecked (adj : List (List ℕ)) (oc : Option (ℕ → ℕ)) :
    Option (List Clause) :=
  (seqVertexClauses oc (List.range adj.length)).map
    (fun cs => cs ++ (tcEdges adj).flatMap edgeClauses)

/-- `ThreeColoration.colorable` with the optional constraints argument:
`none` models the `AttributeError` escaping the call. -/
def colorableChecked (adj : List (List ℕ)) (oc : Option (ℕ → ℕ)) : Option Bool :=
  (tcFormulaChecked adj oc).map dpll

/-- A total 3-coloring of the vertices `0, …, n-1` that agrees with the
constraints on their domain and separates the endpoints of every listed
edge. -/
def ProperColoring (adj : List (List ℕ)) (constraints : ℕ → ℕ) (f : ℕ → ℕ) : Prop :=
  (∀ u < adj.length, f u = 1 ∨ f u = 2 ∨ f u = 3) ∧
    (∀ u < adj.length, constraints u ≠ 0 → f u = constraints u) ∧
    (∀ u < adj.length, ∀ v ∈ adj.getD u [], f u ≠ f v)

/-! ## The coloring quotient (`utils.py`) -/

/-- A frontier coloring: a tuple of colors, each in `{1, 2, 3}` (the integer
projection of the `Color` enumeration). -/
abbrev Coloring := List ℕ

/-- `colorings(n)`: all `3 ^ n` colorings, in the order of
`itertools.product([1, 2, 3], repeat = n)`. -/
def colorings : ℕ → List Coloring
  | 0 => [[]]
  | n + 1 => ([1, 2, 3] : List ℕ).flatMap (fun d => (colorings n).map (fun c => d :: c))

/-- `color_permutations()`: the six permutations of `{1, 2, 3}`, each as the
list of images of `1, 2, 3`, in the order of `itertools.permutations`. -/
def colorPermList : List (List ℕ) :=
  [[1, 2, 3], [1, 3, 2], [2, 1, 3], [2, 3, 1], [3, 1, 2], [3, 2, 1]]

/-- `permute(coloring, sigma)`: compose a color permutation with a coloring. -/
def permute (c : Coloring) (σ : List ℕ) : Coloring :=
  c.map (fun d => σ.getD (d - 1) 0)

/-- `coloring_to_int(coloring)`: the base-10 reading of the tuple. -/
def coloringToInt (c : Coloring) : ℕ :=
  c.foldl (fun acc d => 10 * acc + d) 0

/-- The scan of Python's `min(iterable, key = k)`: the earliest element
whose key is minimal, starting from the current best. -/
def pyMinGo (key : α → ℕ) (best : α) : List α → α
  | [] => best
  | x :: xs => if key x < key best then pyMinGo key x xs else pyMinGo key best xs

/-- Python's `min(iterable, key = k)`: first element with minimal key
(`none` on the empty iterable, where Python raises `ValueError`). -/
def pyMin (key : α → ℕ) : List α → Option α
  | [] => none
  | x :: xs => some (pyMinGo key x xs)

/-- `color_repr(coloring)`: the minimum of the color orbit in the
`coloring_to_int` order. -/
def colorRepr (c : Coloring) : Coloring :=
  (pyMin coloringToInt (colorPermList.map (fun σ => permute c σ))).getD c

/-- `tuple(c[i] for i in sym)`: precompose a coloring with an index list. -/
def applySym (c : Coloring) (sym : List ℕ) : Coloring :=
  sym.map (fun i => c.getD i 0)

/-- The value of `repr_map` at a color-representative `c`: the minimum over
the pattern symmetries of the color-representative of `c ∘ sym`
(`PatternReducibility.__init__`). -/
def reprOf (syms : List (List ℕ)) (c : Coloring) : Coloring :=
  (pyMin coloringToInt (syms.map (fun sym => colorRepr (applySym c sym)))).getD c

/-- `PatternReducibility.representative`: two table lookups, here the
corresponding function composition. -/
def representative (syms : List (List ℕ)) (c : Coloring) : Coloring :=
  reprOf syms (colorRepr c)

/-- Composition of two index lists as symmetries:
`applySym (applySym c s) t = applySym c (compSym s t)` (for well-formed
inputs). -/
def compSym (s t : List ℕ) : List ℕ :=
  t.map (fun i => s.getD i 0)

/-- Composition of two color permutations given as image lists:
`permute (permute c σ) τ = permute c (compColor τ σ)` (for well-formed
inputs). -/
def compColor (τ σ : List ℕ) : List ℕ :=
  σ.map (fun d => τ.getD (d - 1) 0)

/-! ## The reducibility fixed point (`reductor.py`) -/

/-- The record stored by `repr_to_red` for one representative: reducibility
flag, rank (`-1` standing for "unknown", the spec's `∞`), and the
human-readable reason. -/
structure RedInfo where
  reducible : Bool
  rank : ℤ
  reason : String
deriving DecidableEq

/-- The `repr_to_red` mapping: representatives with their records, in
insertion order. -/
abbrev RedMap := List (Coloring × RedInfo)

/-- Dictionary lookup in `repr_to_red` (total here; the Python `KeyError`
case never arises on the keys the engine uses). -/
def lookupRed (m : RedMap) (c : Coloring) : RedInfo :=
  ((m.find? (fun p => decide (p.1 = c))).map (fun p => p.2)).getD ⟨false, -1, ""⟩

/-- The `swap` closure of `make_aux_graph`: toggle the colors of the listed
positions between the two colors of the pair. -/
def swapIdx (c : Coloring) (pr : ℕ × ℕ) (s : Finset ℕ) : Coloring :=
  (List.range c.length).map (fun i =>
    let d := c.getD i 0
    if i ∈ s then (if d = pr.1 then pr.2 else if d = pr.2 then pr.1 else d) else d)

/-- The vertex list of the auxiliary graph: positions whose color belongs to
the pair. -/
def auxVertices (k : ℕ) (c : Coloring) (pr : ℕ × ℕ) : List ℕ :=
  (List.range k).filter (fun i => c.getD i 0 = pr.1 ∨ c.getD i 0 = pr.2)

/-- `PatternReducibility.make_aux_graph`: vertices are the pair-colored
positions; `v` neighbours `u` whenever the single- or double-swap at
`{u, v}` is not yet known reducible. -/
def auxGraph (syms : List (List ℕ)) (m : RedMap) (c : Coloring) (pr : ℕ × ℕ) :
    PGraph :=
  let vs := auxVertices c.length c pr
  vs.map (fun u =>
    (u, vs.filter (fun v =>
      !(lookupRed m (representative syms (swapIdx c pr ({u, v} : Finset ℕ)))).reducible)))

/-- The two colors other than `color`, in ascending order (the iteration
order of the Python set difference). -/
def otherPair (color : ℕ) : ℕ × ℕ :=
  if color = 1 then (2, 3) else if color = 2 then (1, 3) else (1, 2)

/-- The loop body of `PatternReducibility.is_coloring_reducible` over the
remaining colors. -/
def icrLoop (syms : List (List ℕ)) (m : RedMap) (c : Coloring) (k : ℕ) :
    List ℕ → Bool × (ℕ × ℕ)
  | [] => (false, (0, 0))
  | color :: rest =>
    let pr := otherPair color
    if c ≠ List.replicate k color then
      if !matchable (auxGraph syms m c pr) then (true, pr)
      else icrLoop syms m c k rest
    else icrLoop syms m c k rest

/-- `PatternReducibility.is_coloring_reducible`: tries the three Kempe color
pairs; `(0, 0)` stands for the empty Python tuple of the failure record. -/
def isColoringReducible (syms : List (List ℕ)) (m : RedMap) (k : ℕ)
    (c : Coloring) : Bool × (ℕ × ℕ) :=
  icrLoop syms m c k [1, 2, 3]

/-- The reason string recorded for a newly reduced coloring. -/
def mkReason (pr : ℕ × ℕ) : String :=
  "reducible with color pair " ++ toString pr.1 ++ "/" ++ toString pr.2

/-- One scan of the main loop of `is_pattern_reducible`: the buffered list
`new` of newly reducible representatives with their witness pairs, and the
`found_non_reducible` flag. -/
def scanStep (syms : List (List ℕ)) (k : ℕ) (m : RedMap) :
    List (Coloring × (ℕ × ℕ)) × Bool :=
  (m.filterMap (fun p =>
      if p.2.reducible then none
      else
        let r := isColoringReducible syms m k p.1
        if r.1 then some (p.1, r.2) else none),
   m.any (fun p => !p.2.reducible && !(isColoringReducible syms m k p.1).1))

/-- Publication of the buffered discoveries of iteration `i`: each one
becomes reducible with rank `i`. -/
def applyNew (m : RedMap) (new : List (Coloring × (ℕ × ℕ))) (i : ℕ) : RedMap :=
  m.map (fun p =>
    match new.find? (fun q => decide (q.1 = p.1)) with
    | some q => (p.1, ⟨true, (i : ℤ), mkReason q.2⟩)
    | none => p)

/-- The `while found_changed` loop of `is_pattern_reducible`, with fuel.
Every non-final iteration marks at least one new representative, so fuel
`m.length + 2` always suffices. -/
def fixLoop (syms : List (List ℕ)) (k : ℕ) : ℕ → ℕ → RedMap →
    Option (RedMap × Bool)
  | 0, _, _ => none
  | fuel + 1, i, m =>
    let s := scanStep syms k m
    if s.1.isEmpty then some (m, !s.2)
    else fixLoop syms k fuel (i + 1) (applyNew m s.1 i)

/-- The constraints dictionary `{outgoing[i]: c[i]}` as a function (`0` for
the absent keys; on duplicate keys the last pair wins, as in Python). -/
def constraintsOf (og : List ℕ) (c : Coloring) : ℕ → ℕ :=
  fun u => (og.zip c).foldl (fun acc p => if p.1 = u then p.2 else acc) 0

/-- `PatternReducibility.__init__`: filter the colorings that are their own
color-representative, then those that are their own representative, and test
each for extendability (rank `0`) via the 3-coloring reduction. -/
def initRed (lg : List (List ℕ)) (og : List ℕ) (syms : List (List ℕ)) : RedMap :=
  (((colorings og.length).filter (fun c => decide (colorRepr c = c))).filter
      (fun c => decide (reprOf syms c = c))).map
    (fun c =>
      (c, if colorable lg (constraintsOf og c)
          then ⟨true, 0, "extendable"⟩
          else ⟨false, -1, ""⟩))

/-- The fixed-point run of `is_pattern_reducible`: final `repr_to_red` map
and verdict. -/
def patternFix (lg : List (List ℕ)) (og : List ℕ) (syms : List (List ℕ)) :
    Option (RedMap × Bool) :=
  let m0 := initRed lg og syms
  fixLoop syms og.length (m0.length + 2) 1 m0

/-- `PatternReducibility.is_pattern_reducible` (the `display = False` path). -/
def isPatternReducible (lg : List (List ℕ)) (og : List ℕ)
    (syms : List (List ℕ)) : Option Bool :=
  (patternFix lg og syms).map (fun r => r.2)

/-- The loop states reached by `is_pattern_reducible`: iteration index and
current `repr_to_red` map. -/
inductive Reaches (lg : List (List ℕ)) (og : List ℕ) (syms : List (List ℕ)) :
    ℕ → RedMap → Prop
  | init : Reaches lg og syms 1 (initRed lg og syms)
  | step {i : ℕ} {m : RedMap} :
      Reaches lg og syms i m →
      (scanStep syms og.length m).1 ≠ [] →
      Reaches lg og syms (i + 1) (applyNew m (scanStep syms og.length m).1 i)
/-- Well-formed input for `CNFSAT`: every literal is a non-zero integer. -/
def WFClauses (C : List Clause) : Prop := ∀ cl ∈ C, ∀ x ∈ cl, x ≠ 0

/-- Colorings with all entries in `{1, 2, 3}`. -/
def WFColoring (c : Coloring) : Prop := ∀ d ∈ c, 1 ≤ d ∧ d ≤ 3

/-- Well-formed symmetry lists for a frontier of size `k`: permutations of
`{0, …, k-1}` given as index lists. -/
def WFSyms (k : ℕ) (syms : List (List ℕ)) : Prop :=
  ∀ s ∈ syms, s.length = k ∧ (∀ x ∈ s, x < k) ∧ s.Nodup

instance (c : Coloring) : Decidable (WFColoring c) := by
  unfold WFColoring; infer_instance

instance (k : ℕ) (syms : List (List ℕ)) : Decidable (WFSyms k syms) := by
  unfold WFSyms; infer_instance

/-- The coloring read off a valuation of the `cvar` variables. -/
def valColor (v : ℤ → Bool) (u : ℕ) : ℕ :=
  if v (cvar u 1) then 1 else if v (cvar u 2) then 2 else 3

/-- The valuation encoding a coloring: variable `3 u + c` is true when
`f u = c`. -/
def colorValuation (f : ℕ → ℕ) : ℤ → Bool :=
  fun x => decide (f (((x - 1) / 3).toNat) = (x - 3 * ((x - 1) / 3)).toNat)

/-! ### Basic facts about the DPLL building blocks -/

theorem length_filter_lt_of_mem {α : Type} {l : List α} {p : α → Bool} {x : α}
    (hx : x ∈ l) (hp : ¬p x = true) : (l.filter p).length < l.length := by
  induction l with
  | nil => simp at hx
  | cons a t ih =>
    rcases List.mem_cons.mp hx with rfl | hm
    · simp only [List.filter_cons]
      rw [if_neg (by simp [hp])]
      simpa using Nat.lt_succ_of_le (List.length_filter_le p t)
    · simp only [List.filter_cons]
      split
      · simpa using ih hm
      · simpa using Nat.lt_succ_of_le (Nat.le_of_lt (ih hm))

theorem mem_sortedInts {x : ℤ} {s : Multiset ℤ} : x ∈ sortedInts s ↔ x ∈ s := by
  induction s using Quotient.inductionOn with
  | h l => simp [sortedInts, (List.perm_insertionSort (· ≤ ·) l).mem_iff]

theorem mem_litList {x : ℤ} {c : Finset ℤ} : x ∈ litList c ↔ x ∈ c := by
  rw [litList, mem_sortedInts]; rfl

theorem litList_singleton (a : ℤ) : litList ({a} : Finset ℤ) = [a] := rfl

theorem mem_clauseLits {l : ℤ} {C : List Clause} :
    l ∈ clauseLits C ↔ ∃ cl ∈ C, l ∈ cl := by
  induction C with
  | nil => simp [clauseLits]
  | cons c rest ih => simp only [clauseLits, List.foldr] at ih ⊢; simp [ih]

theorem mem_clauseVars {n : ℕ} {C : List Clause} :
    n ∈ clauseVars C ↔ ∃ cl ∈ C, ∃ l ∈ cl, l.natAbs = n := by
  induction C with
  | nil => simp [clauseVars]
  | cons c rest ih => simp only [clauseVars, List.foldr] at ih ⊢; simp [ih]

theorem natAbs_mem_clauseVars {l : ℤ} {C : List Clause} (h : l ∈ clauseLits C) :
    l.natAbs ∈ clauseVars C := by
  obtain ⟨cl, hcl, hl⟩ := mem_clauseLits.mp h
  exact mem_clauseVars.mpr ⟨cl, hcl, l, hl, rfl⟩

theorem findUnit_spec : ∀ {C : List Clause} {l : ℤ},
    findUnit C = some l → ({l} : Clause) ∈ C := by
  intro C
  induction C with
  | nil => intro l h; simp [findUnit] at h
  | cons c rest ih =>
    intro l h
    rw [findUnit] at h
    by_cases hc : c.card = 1
    · rw [if_pos hc] at h
      obtain ⟨a, ha⟩ := Finset.card_eq_one.mp hc
      subst ha
      rw [litList_singleton] at h
      simp at h
      rw [← h]; exact List.mem_cons_self _ _
    · rw [if_neg hc] at h
      exact List.mem_cons_of_mem _ (ih h)

theorem findUnit_of_singleton {C : List Clause} {l : ℤ} (h : ({l} : Clause) ∈ C) :
    ∃ l2, findUnit C = some l2 := by
  induction C with
  | nil => simp at h
  | cons c rest ih =>
    rw [findUnit]
    by_cases hc : c.card = 1
    · exact ⟨_, by rw [if_pos hc]⟩
    · rw [if_neg hc]
      rcases List.mem_cons.mp h with h1 | h2
      · exact absurd (by rw [← h1]; exact Finset.card_singleton l) hc
      · exact ih h2

theorem length_unitPropagate_lt {l : ℤ} {C : List Clause} (h : ({l} : Clause) ∈ C) :
    (unitPropagate l C).length < C.length := by
  rw [unitPropagate, List.length_map]
  exact length_filter_lt_of_mem h (by simp)

theorem mem_unitPropagate {l : ℤ} {C : List Clause} {cl : Clause} :
    cl ∈ unitPropagate l C ↔ ∃ c ∈ C, l ∉ c ∧ cl = c.erase (-l) := by
  simp only [unitPropagate, List.mem_map, List.mem_filter, decide_eq_true_eq]
  constructor
  · rintro ⟨c, ⟨hc, hlc⟩, rfl⟩; exact ⟨c, hc, hlc, rfl⟩
  · rintro ⟨c, hc, hlc, rfl⟩; exact ⟨c, ⟨hc, hlc⟩, rfl⟩

theorem clauseVars_unitPropagate_subset (l : ℤ) (C : List Clause) :
    clauseVars (unitPropagate l C) ⊆ clauseVars C := by
  intro n hn
  obtain ⟨cl, hcl, x, hx, hxn⟩ := mem_clauseVars.mp hn
  obtain ⟨c, hc, -, rfl⟩ := mem_unitPropagate.mp hcl
  exact mem_clauseVars.mpr ⟨c, hc, x, Finset.mem_of_mem_erase hx, hxn⟩

theorem empty_mem_unitPropagate {l : ℤ} {C : List Clause} (h : (∅ : Clause) ∈ C) :
    (∅ : Clause) ∈ unitPropagate l C :=
  mem_unitPropagate.mpr ⟨∅, h, Finset.not_mem_empty l, (Finset.erase_empty _).symm⟩

theorem natAbs_not_mem_unitPropagate (l : ℤ) (C : List Clause) :
    l.natAbs ∉ clauseVars (unitPropagate l C) := by
  intro hn
  obtain ⟨cl, hcl, x, hx, hxn⟩ := mem_clauseVars.mp hn
  obtain ⟨c, hc, hlc, rfl⟩ := mem_unitPropagate.mp hcl
  have hxl : x = l ∨ x = -l := Int.natAbs_eq_natAbs_iff.mp hxn
  rcases hxl with rfl | rfl
  · exact hlc (Finset.mem_of_mem_erase hx)
  · exact (Finset.ne_of_mem_erase hx) rfl

theorem clauseVars_propagateGo_subset (f : ℕ) :
    ∀ C, clauseVars (propagateGo f C) ⊆ clauseVars C := by
  induction f with
  | zero => intro C; rw [propagateGo]
  | succ f ih =>
    intro C
    rw [propagateGo]
    cases hfu : findUnit C with
    | none => exact fun _ h => h
    | some l =>
      exact fun n hn => clauseVars_unitPropagate_subset l C (ih _ hn)

theorem empty_mem_propagateGo (f : ℕ) :
    ∀ {C}, (∅ : Clause) ∈ C → (∅ : Clause) ∈ propagateGo f C := by
  induction f with
  | zero => intro C h; rwa [propagateGo]
  | succ f ih =>
    intro C h
    rw [propagateGo]
    cases hfu : findUnit C with
    | none => exact h
    | some l => exact ih (empty_mem_unitPropagate h)

theorem propagateGo_elim (f : ℕ) :
    ∀ {C : List Clause} {l : ℤ}, C.length < f → ({l} : Clause) ∈ C →
      (∅ : Clause) ∈ propagateGo f C ∨ l.natAbs ∉ clauseVars (propagateGo f C) := by
  induction f with
  | zero => intro C l h; omega
  | succ f ih =>
    intro C l hlen hmem
    rw [propagateGo]
    obtain ⟨l2, hl2⟩ := findUnit_of_singleton hmem
    rw [hl2]
    by_cases heq : l2 = l
    · subst heq
      exact Or.inr fun hn =>
        natAbs_not_mem_unitPropagate l2 C (clauseVars_propagateGo_subset f _ hn)
    · by_cases hneg : l = -l2
      · left
        apply empty_mem_propagateGo
        refine mem_unitPropagate.mpr ⟨{l}, hmem, ?_, ?_⟩
        · simp only [Finset.mem_singleton]
          intro hc; exact heq (by omega)
        · rw [hneg]; simp
      · have hkeep : ({l} : Clause) ∈ unitPropagate l2 C := by
          refine mem_unitPropagate.mpr ⟨{l}, hmem, ?_, ?_⟩
          · simp only [Finset.mem_singleton]; intro hc; exact heq hc
          · rw [Finset.erase_eq_self.mpr]; simp only [Finset.mem_singleton]
            intro hc; exact hneg hc.symm
        have hlt : (unitPropagate l2 C).length < f :=
          Nat.lt_of_lt_of_le (length_unitPropagate_lt (findUnit_spec hl2)) (by omega)
        exact ih hlt hkeep

theorem findPure_spec {C : List Clause} {l : ℤ} (h : findPure C = some l) :
    l ∈ clauseLits C ∧ -l ∉ clauseLits C := by
  constructor
  · exact mem_litList.mp (List.mem_of_find?_eq_some h)
  · have := List.find?_some h
    simpa using this

theorem mem_pureAssign {l : ℤ} {C : List Clause} {cl : Clause} :
    cl ∈ pureAssign l C ↔ cl ∈ C ∧ l ∉ cl := by
  simp [pureAssign, List.mem_filter]

theorem length_pureAssign_lt {l : ℤ} {C : List Clause} (h : l ∈ clauseLits C) :
    (pureAssign l C).length < C.length := by
  obtain ⟨cl, hcl, hl⟩ := mem_clauseLits.mp h
  exact length_filter_lt_of_mem hcl (by simp [hl])

theorem clauseVars_pureAssign_subset (l : ℤ) (C : List Clause) :
    clauseVars (pureAssign l C) ⊆ clauseVars C := by
  intro n hn
  obtain ⟨cl, hcl, x, hx, hxn⟩ := mem_clauseVars.mp hn
  exact mem_clauseVars.mpr ⟨cl, (mem_pureAssign.mp hcl).1, x, hx, hxn⟩

theorem empty_mem_pureGo (f : ℕ) :
    ∀ {C}, (∅ : Clause) ∈ C → (∅ : Clause) ∈ pureGo f C := by
  induction f with
  | zero => intro C h; rwa [pureGo]
  | succ f ih =>
    intro C h
    rw [pureGo]
    cases hfp : findPure C with
    | none => exact h
    | some l => exact ih (mem_pureAssign.mpr ⟨h, Finset.not_mem_empty l⟩)

theorem clauseVars_pureGo_subset (f : ℕ) :
    ∀ C, clauseVars (pureGo f C) ⊆ clauseVars C := by
  induction f with
  | zero => intro C; rw [pureGo]
  | succ f ih =>
    intro C
    rw [pureGo]
    cases hfp : findPure C with
    | none => exact fun _ h => h
    | some l => exact fun n hn => clauseVars_pureAssign_subset l C (ih _ hn)

theorem headD_mem {α : Type} {l : List α} (h : l ≠ []) (d : α) : l.headD d ∈ l := by
  cases l with
  | nil => exact absurd rfl h
  | cons a t => exact List.mem_cons_self _ _

theorem chooseLit_mem {C : List Clause} (hne : C ≠ []) (hno : (∅ : Clause) ∉ C) :
    chooseLit C ∈ clauseLits C := by
  have hex : ∃ x, x ∈ clauseLits C := by
    cases C with
    | nil => exact absurd rfl hne
    | cons c rest =>
      have hc : c ≠ ∅ := fun h => hno (h ▸ List.mem_cons_self _ _)
      obtain ⟨x, hx⟩ := Finset.nonempty_iff_ne_empty.mpr hc
      exact ⟨x, mem_clauseLits.mpr ⟨c, List.mem_cons_self _ _, hx⟩⟩
  obtain ⟨x, hx⟩ := hex
  have : litList (clauseLits C) ≠ [] := by
    intro hnil
    have := mem_litList.mpr hx
    rw [hnil] at this
    exact absurd this (List.not_mem_nil x)
  exact mem_litList.mp (headD_mem this 0)
/-! ### Termination of the DPLL recursion -/

theorem varCount_pos {C : List Clause} (hne : C ≠ []) (hno : (∅ : Clause) ∉ C) :
    1 ≤ varCount C := by
  have := chooseLit_mem hne hno
  have hmem := natAbs_mem_clauseVars this
  exact Finset.card_pos.mpr ⟨_, hmem⟩

theorem clauseVars_append_singleton {C : List Clause} {l : ℤ}
    (hv : l.natAbs ∈ clauseVars C) :
    clauseVars (C ++ [({l} : Clause)]) = clauseVars C := by
  apply Finset.Subset.antisymm
  · intro n hn
    obtain ⟨cl, hcl, x, hx, hxn⟩ := mem_clauseVars.mp hn
    rcases List.mem_append.mp hcl with h1 | h2
    · exact mem_clauseVars.mpr ⟨cl, h1, x, hx, hxn⟩
    · simp only [List.mem_singleton] at h2
      subst h2
      simp only [Finset.mem_singleton] at hx
      subst hx
      rwa [← hxn]
  · intro n hn
    obtain ⟨cl, hcl, x, hx, hxn⟩ := mem_clauseVars.mp hn
    exact mem_clauseVars.mpr ⟨cl, List.mem_append_left _ hcl, x, hx, hxn⟩

theorem dpllF_child_isSome {fuel : ℕ}
    (ih : ∀ C : List Clause, varCount (pureAll (propagateAll C)) < fuel →
      (dpllF fuel C).isSome = true)
    {c2 : List Clause} (hno : (∅ : Clause) ∉ c2)
    (hfuel : varCount c2 ≤ fuel) {l : ℤ} (hv : l.natAbs ∈ clauseVars c2) :
    (dpllF fuel (c2 ++ [({l} : Clause)])).isSome = true := by
  set childC := c2 ++ [({l} : Clause)] with hchild
  have hmem : ({l} : Clause) ∈ childC := List.mem_append_right _ (List.mem_cons_self _ _)
  have hlen : childC.length < childC.length + 1 := Nat.lt_succ_self _
  rcases propagateGo_elim (childC.length + 1) hlen hmem with hemp | helim
  · -- the child simplifies to a formula containing the empty clause and
    -- returns at a terminal test without further recursion
    have hfuel1 : 1 ≤ fuel := by
      have h1 : 1 ≤ varCount c2 := by
        apply varCount_pos ?_ hno
        intro hnil
        rw [hnil] at hv
        simp [clauseVars] at hv
      omega
    obtain ⟨f, rfl⟩ : ∃ f, fuel = f + 1 := ⟨fuel - 1, by omega⟩
    have hempty2 : (∅ : Clause) ∈ pureAll (propagateAll childC) :=
      empty_mem_pureGo _ hemp
    by_cases h1 : childC = []
    · rw [dpllF, if_pos h1]; rfl
    · rw [dpllF, if_neg h1]
      by_cases h2 : (∅ : Clause) ∈ childC
      · rw [if_pos h2]; rfl
      · rw [if_neg h2]
        dsimp only
        by_cases h3 : pureAll (propagateAll childC) = []
        · rw [if_pos h3]; rfl
        · rw [if_neg h3, if_pos hempty2]; rfl
  · -- the branching literal has been eliminated: strictly fewer variables
    apply ih
    have hsub : clauseVars (pureAll (propagateAll childC)) ⊆
        clauseVars (propagateAll childC) := clauseVars_pureGo_subset _ _
    have hsub2 : clauseVars (propagateAll childC) ⊆ clauseVars childC :=
      clauseVars_propagateGo_subset _ _
    have hchildvars : clauseVars childC = clauseVars c2 :=
      clauseVars_append_singleton hv
    have hst : clauseVars (pureAll (propagateAll childC)) ⊆
        (clauseVars c2).erase l.natAbs := by
      intro n hn
      refine Finset.mem_erase.mpr ⟨?_, hchildvars ▸ hsub2 (hsub hn)⟩
      intro hne
      exact helim (hne ▸ hsub hn)
    have hcard : varCount (pureAll (propagateAll childC)) ≤
        ((clauseVars c2).erase l.natAbs).card := Finset.card_le_card hst
    have herase : ((clauseVars c2).erase l.natAbs).card = varCount c2 - 1 := by
      rw [Finset.card_erase_of_mem hv]; rfl
    have hpos : 1 ≤ varCount c2 := Finset.card_pos.mpr ⟨_, hv⟩
    omega

theorem dpllF_isSome : ∀ (fuel : ℕ) (C : List Clause),
    varCount (pureAll (propagateAll C)) < fuel → (dpllF fuel C).isSome = true := by
  intro fuel
  induction fuel with
  | zero => intro C h; omega
  | succ fuel ih =>
    intro C hlt
    by_cases h1 : C = []
    · rw [dpllF, if_pos h1]; rfl
    · rw [dpllF, if_neg h1]
      by_cases h2 : (∅ : Clause) ∈ C
      · rw [if_pos h2]; rfl
      · rw [if_neg h2]
        dsimp only
        by_cases hne2 : pureAll (propagateAll C) = []
        · rw [if_pos hne2]; rfl
        · rw [if_neg hne2]
          by_cases hno2 : (∅ : Clause) ∈ pureAll (propagateAll C)
          · rw [if_pos hno2]; rfl
          · rw [if_neg hno2]
            set c2 := pureAll (propagateAll C) with hc2
            have hfuel : varCount c2 ≤ fuel := by omega
            have hl := chooseLit_mem hne2 hno2
            have hv : (chooseLit c2).natAbs ∈ clauseVars c2 := natAbs_mem_clauseVars hl
            have hleft := dpllF_child_isSome ih hno2 hfuel hv
            have hvneg : (-chooseLit c2).natAbs ∈ clauseVars c2 := by
              rwa [Int.natAbs_neg]
            have hright := dpllF_child_isSome ih hno2 hfuel hvneg
            rcases Option.isSome_iff_exists.mp hleft with ⟨bl, hbl⟩
            rw [hbl]
            cases bl
            · exact hright
            · rfl
/-! ### Soundness and completeness of the DPLL steps -/

theorem sat_nil : Sat [] := ⟨fun _ => true, by simp⟩

theorem not_sat_of_empty_mem {C : List Clause} (h : (∅ : Clause) ∈ C) : ¬Sat C := by
  rintro ⟨v, hv⟩
  obtain ⟨l, hl, -⟩ := hv ∅ h
  exact Finset.not_mem_empty l hl

theorem evalLit_neg (v : ℤ → Bool) {l : ℤ} (hl : l ≠ 0) :
    evalLit v (-l) = !evalLit v l := by
  unfold evalLit
  by_cases h : 0 < l
  · have h1 : ¬0 < -l := by omega
    rw [if_pos h, if_neg h1, neg_neg]
  · have h2 : 0 < -l := by omega
    rw [if_neg h, if_pos h2, Bool.not_not]

theorem evalLit_setTrue_self (v : ℤ → Bool) (l : ℤ) :
    evalLit (setTrue v l) l = true := by
  by_cases h0 : l = 0
  · subst h0; simp [evalLit, setTrue]
  · by_cases hp : 0 < l
    · have h1 : l ≠ -l := by omega
      simp [evalLit, setTrue, hp, h1]
    · simp [evalLit, setTrue, hp]

theorem evalLit_setTrue_other (v : ℤ → Bool) (l x : ℤ) (h1 : x ≠ l) (h2 : x ≠ -l) :
    evalLit (setTrue v l) x = evalLit v x := by
  by_cases hp : 0 < x
  · simp [evalLit, setTrue, hp, h1, h2]
  · have h3 : -x ≠ -l := fun hc => h1 (by omega)
    have h4 : -x ≠ l := fun hc => h2 (by omega)
    simp [evalLit, setTrue, hp, h3, h4]

theorem sat_unitPropagate_iff {l : ℤ} {C : List Clause} (h : ({l} : Clause) ∈ C) :
    Sat (unitPropagate l C) ↔ Sat C := by
  constructor
  · rintro ⟨v, hv⟩
    refine ⟨setTrue v l, fun cl hcl => ?_⟩
    by_cases hlc : l ∈ cl
    · exact ⟨l, hlc, evalLit_setTrue_self v l⟩
    · have hcl2 : cl.erase (-l) ∈ unitPropagate l C :=
        mem_unitPropagate.mpr ⟨cl, hcl, hlc, rfl⟩
      obtain ⟨x, hx, hxe⟩ := hv _ hcl2
      have hx1 : x ≠ -l := Finset.ne_of_mem_erase hx
      have hxcl : x ∈ cl := Finset.mem_of_mem_erase hx
      have hx2 : x ≠ l := fun hc => hlc (hc ▸ hxcl)
      exact ⟨x, hxcl, by rw [evalLit_setTrue_other v l x hx2 hx1]; exact hxe⟩
  · rintro ⟨v, hv⟩
    have hsatl : evalLit v l = true := by
      obtain ⟨x, hx, hxe⟩ := hv _ h
      simp only [Finset.mem_singleton] at hx
      rwa [hx] at hxe
    refine ⟨v, fun cl hcl => ?_⟩
    obtain ⟨c, hc, hlc, rfl⟩ := mem_unitPropagate.mp hcl
    obtain ⟨x, hx, hxe⟩ := hv c hc
    refine ⟨x, Finset.mem_erase.mpr ⟨?_, hx⟩, hxe⟩
    intro hcon
    subst hcon
    by_cases h0 : l = 0
    · subst h0; exact hlc (by simpa using hx)
    · rw [evalLit_neg v h0, hsatl] at hxe
      simp at hxe

theorem sat_pureAssign_iff {l : ℤ} {C : List Clause} (_hmem : l ∈ clauseLits C)
    (hpure : -l ∉ clauseLits C) : Sat (pureAssign l C) ↔ Sat C := by
  constructor
  · rintro ⟨v, hv⟩
    refine ⟨setTrue v l, fun cl hcl => ?_⟩
    by_cases hlc : l ∈ cl
    · exact ⟨l, hlc, evalLit_setTrue_self v l⟩
    · obtain ⟨x, hx, hxe⟩ := hv cl (mem_pureAssign.mpr ⟨hcl, hlc⟩)
      have hx1 : x ≠ l := fun hc => hlc (hc ▸ hx)
      have hx2 : x ≠ -l := fun hc =>
        hpure (hc ▸ mem_clauseLits.mpr ⟨cl, hcl, hx⟩)
      exact ⟨x, hx, by rw [evalLit_setTrue_other v l x hx1 hx2]; exact hxe⟩
  · rintro ⟨v, hv⟩
    exact ⟨v, fun cl hcl => hv cl (mem_pureAssign.mp hcl).1⟩

theorem sat_propagateGo_iff (f : ℕ) :
    ∀ C, Sat (propagateGo f C) ↔ Sat C := by
  induction f with
  | zero => intro C; rw [propagateGo]
  | succ f ih =>
    intro C
    rw [propagateGo]
    cases hfu : findUnit C with
    | none => rfl
    | some l => rw [ih]; exact sat_unitPropagate_iff (findUnit_spec hfu)

theorem sat_pureGo_iff (f : ℕ) :
    ∀ C, Sat (pureGo f C) ↔ Sat C := by
  induction f with
  | zero => intro C; rw [pureGo]
  | succ f ih =>
    intro C
    rw [pureGo]
    cases hfp : findPure C with
    | none => rfl
    | some l =>
      rw [ih]
      exact sat_pureAssign_iff (findPure_spec hfp).1 (findPure_spec hfp).2

theorem sat_branch {l : ℤ} {C : List Clause} (hl : l ≠ 0) :
    Sat C ↔ Sat (C ++ [({l} : Clause)]) ∨ Sat (C ++ [({-l} : Clause)]) := by
  constructor
  · rintro ⟨v, hv⟩
    cases hb : evalLit v l with
    | true =>
      refine Or.inl ⟨v, fun cl hcl => ?_⟩
      rcases List.mem_append.mp hcl with h1 | h2
      · exact hv cl h1
      · simp only [List.mem_singleton] at h2
        exact ⟨l, by simp [h2], hb⟩
    | false =>
      refine Or.inr ⟨v, fun cl hcl => ?_⟩
      rcases List.mem_append.mp hcl with h1 | h2
      · exact hv cl h1
      · simp only [List.mem_singleton] at h2
        exact ⟨-l, by simp [h2], by rw [evalLit_neg v hl, hb]; rfl⟩
  · rintro (⟨v, hv⟩ | ⟨v, hv⟩) <;>
      exact ⟨v, fun cl hcl => hv cl (List.mem_append_left _ hcl)⟩

theorem wf_unitPropagate {l : ℤ} {C : List Clause} (h : WFClauses C) :
    WFClauses (unitPropagate l C) := by
  intro cl hcl x hx
  obtain ⟨c, hc, -, rfl⟩ := mem_unitPropagate.mp hcl
  exact h c hc x (Finset.mem_of_mem_erase hx)

theorem wf_pureAssign {l : ℤ} {C : List Clause} (h : WFClauses C) :
    WFClauses (pureAssign l C) :=
  fun cl hcl => h cl (mem_pureAssign.mp hcl).1

theorem wf_propagateGo (f : ℕ) : ∀ {C}, WFClauses C → WFClauses (propagateGo f C) := by
  induction f with
  | zero => intro C h; rwa [propagateGo]
  | succ f ih =>
    intro C h
    rw [propagateGo]
    cases findUnit C with
    | none => exact h
    | some l => exact ih (wf_unitPropagate h)

theorem wf_pureGo (f : ℕ) : ∀ {C}, WFClauses C → WFClauses (pureGo f C) := by
  induction f with
  | zero => intro C h; rwa [pureGo]
  | succ f ih =>
    intro C h
    rw [pureGo]
    cases findPure C with
    | none => exact h
    | some l => exact ih (wf_pureAssign h)

theorem wf_append_singleton {C : List Clause} {l : ℤ} (h : WFClauses C) (hl : l ≠ 0) :
    WFClauses (C ++ [({l} : Clause)]) := by
  intro cl hcl x hx
  rcases List.mem_append.mp hcl with h1 | h2
  · exact h cl h1 x hx
  · simp only [List.mem_singleton] at h2
    subst h2
    simp only [Finset.mem_singleton] at hx
    exact hx ▸ hl

theorem wf_lit_ne_zero {C : List Clause} {l : ℤ} (h : WFClauses C)
    (hl : l ∈ clauseLits C) : l ≠ 0 := by
  obtain ⟨cl, hcl, hx⟩ := mem_clauseLits.mp hl
  exact h cl hcl l hx

theorem dpllF_correct : ∀ (fuel : ℕ) (C : List Clause) (b : Bool),
    dpllF fuel C = some b → WFClauses C → (b = true ↔ Sat C) := by
  intro fuel
  induction fuel with
  | zero => intro C b h; simp [dpllF] at h
  | succ fuel ih =>
    intro C b h hwf
    by_cases h1 : C = []
    · rw [dpllF, if_pos h1] at h
      simp only [Option.some.injEq] at h
      subst h1; rw [← h]
      simpa using sat_nil
    · rw [dpllF, if_neg h1] at h
      by_cases h2 : (∅ : Clause) ∈ C
      · rw [if_pos h2] at h
        simp only [Option.some.injEq] at h
        rw [← h]
        simp [not_sat_of_empty_mem h2]
      · rw [if_neg h2] at h
        dsimp only at h
        set c2 := pureAll (propagateAll C) with hc2
        have hsatc2 : Sat c2 ↔ Sat C := by
          rw [hc2, pureAll, propagateAll, sat_pureGo_iff, sat_propagateGo_iff]
        have hwfc2 : WFClauses c2 := wf_pureGo _ (wf_propagateGo _ hwf)
        by_cases h3 : c2 = []
        · rw [if_pos h3] at h
          simp only [Option.some.injEq] at h
          rw [← h, ← hsatc2, h3]
          simpa using sat_nil
        · rw [if_neg h3] at h
          by_cases h4 : (∅ : Clause) ∈ c2
          · rw [if_pos h4] at h
            simp only [Option.some.injEq] at h
            rw [← h, ← hsatc2]
            simp [not_sat_of_empty_mem h4]
          · rw [if_neg h4] at h
            set l := chooseLit c2 with hl
            have hlmem : l ∈ clauseLits c2 := chooseLit_mem h3 h4
            have hlne : l ≠ 0 := wf_lit_ne_zero hwfc2 hlmem
            have hwfL : WFClauses (c2 ++ [({l} : Clause)]) :=
              wf_append_singleton hwfc2 hlne
            have hwfR : WFClauses (c2 ++ [({-l} : Clause)]) :=
              wf_append_singleton hwfc2 (by omega)
            rw [← hsatc2, sat_branch hlne]
            cases hL : dpllF fuel (c2 ++ [({l} : Clause)]) with
            | none => rw [hL] at h; exact absurd h (by simp)
            | some bl =>
              rw [hL] at h
              have hiffL := ih _ bl hL hwfL
              cases bl with
              | true =>
                simp only [Option.some.injEq] at h
                rw [← h]
                simp only [true_iff]
                exact Or.inl (hiffL.mp rfl)
              | false =>
                have hnotL : ¬Sat (c2 ++ [({l} : Clause)]) := by
                  intro hs
                  exact absurd (hiffL.mpr hs) (by simp)
                have hiffR := ih _ b h hwfR
                rw [hiffR]
                constructor
                · exact Or.inr
                · rintro (hs | hs)
                  · exact absurd hs hnotL
                  · exact hs
/-! ### The DPLL decision procedure is total and correct -/

theorem dpllF_at_dpllFuel_isSome (C : List Clause) :
    (dpllF (dpllFuel C) C).isSome = true :=
  dpllF_isSome (dpllFuel C) C (by unfold dpllFuel; omega)

theorem dpll_eq_true_iff_sat {C : List Clause} (hwf : WFClauses C) :
    dpll C = true ↔ Sat C := by
  obtain ⟨b, hb⟩ := Option.isSome_iff_exists.mp (dpllF_at_dpllFuel_isSome C)
  rw [dpll, hb, Option.getD_some]
  exact dpllF_correct _ _ _ hb hwf
theorem propagateAll_no_unit_aux : ∀ (f : ℕ) (C : List Clause), C.length < f →
    findUnit (propagateGo f C) = none := by
  intro f
  induction f with
  | zero => intro C h; omega
  | succ f ih =>
    intro C hlen
    rw [propagateGo]
    cases hfu : findUnit C with
    | none => exact hfu
    | some l =>
      apply ih
      have := length_unitPropagate_lt (findUnit_spec hfu)
      omega

theorem propagateAll_no_unit (C : List Clause) :
    findUnit (propagateAll C) = none :=
  propagateAll_no_unit_aux _ C (Nat.lt_succ_self _)

theorem pureAll_no_pure_aux : ∀ (f : ℕ) (C : List Clause), C.length < f →
    findPure (pureGo f C) = none := by
  intro f
  induction f with
  | zero => intro C h; omega
  | succ f ih =>
    intro C hlen
    rw [pureGo]
    cases hfp : findPure C with
    | none => exact hfp
    | some l =>
      apply ih
      have := length_pureAssign_lt (findPure_spec hfp).1
      omega

theorem pureAll_no_pure (C : List Clause) :
    findPure (pureAll C) = none :=
  pureAll_no_pure_aux _ C (Nat.lt_succ_self _)

/-- C1: for every finite list of clauses, each a finite set of non-zero
signed integer literals, `CNFSAT(clauses).dpll()` returns `true` if and only
if some valuation of the propositional variables satisfies every clause. -/
theorem dpll_decides_satisfiability (C : List Clause)
    (hwf : ∀ cl ∈ C, ∀ l ∈ cl, l ≠ 0) :
    dpll C = true ↔ Sat C :=
  dpll_eq_true_iff_sat hwf

theorem dpll_decides_satisfiability_witness :
    (∀ cl ∈ ([{1, -2}, {2}] : List Clause), ∀ l ∈ cl, l ≠ 0) ∧
      (dpll [{1, -2}, {2}] = true ↔ Sat [{1, -2}, {2}]) :=
  ⟨by decide, dpll_decides_satisfiability [{1, -2}, {2}] (by decide)⟩

/-- C8: `CNFSAT.dpll` terminates on every input: the unit-propagation and
pure-literal loops reach a state with no unit (resp. pure) literal, and the
branching recursion, run with the fuel `dpllFuel C`, returns a value, which
is the value `dpll` reports. -/
theorem dpll_total (C : List Clause) :
    findUnit (propagateAll C) = none ∧ findPure (pureAll C) = none ∧
      ∃ b, dpllF (dpllFuel C) C = some b ∧ dpll C = b := by
  refine ⟨propagateAll_no_unit C, pureAll_no_pure C, ?_⟩
  obtain ⟨b, hb⟩ := Option.isSome_iff_exists.mp (dpllF_at_dpllFuel_isSome C)
  exact ⟨b, hb, by rw [dpll, hb, Option.getD_some]⟩
/-! ### The crossing predicate -/

theorem between_sign_neg {a b x : ℤ} (hab : a ≤ b) :
    (a - x) * (b - x) < 0 ↔ a < x ∧ x < b := by
  rw [mul_neg_iff]
  omega

theorem between_sign_pos {a b x : ℤ} (hab : a ≤ b) :
    0 < (a - x) * (b - x) ↔ x < a ∨ b < x := by
  rw [mul_pos_iff]
  omega

/-- C6 counterexample: the edges `(1, 3)` and `(2, 3)` are canonical, share
the endpoint `3`, and exactly one endpoint of the second (`2`) lies strictly
between the endpoints of the first, yet `_crossing` returns `false`; the
claim's biconditional demands `true` there. -/
theorem crossing_claim_counterexample :
    (1 : ℤ) ≤ 3 ∧ (2 : ℤ) ≤ 3 ∧ ExactlyOneBetween 1 3 2 3 ∧
      crossing ((1 : ℤ), (3 : ℤ)) ((2 : ℤ), (3 : ℤ)) = false := by
  refine ⟨by decide, by decide, ?_, by decide⟩
  left
  exact ⟨⟨by decide, by decide⟩, by decide⟩

/-- C6 (amended): for canonical edges, `_crossing` returns `true` iff exactly
one endpoint of the second edge lies strictly between the endpoints of the
first *and* the two edges share no endpoint.  In particular it returns
`false` on loops, on edges sharing an endpoint, and on identical edges. -/
theorem crossing_characterization (u1 v1 u2 v2 : ℤ) (h1 : u1 ≤ v1) (h2 : u2 ≤ v2) :
    crossing (u1, v1) (u2, v2) = true ↔
      ExactlyOneBetween u1 v1 u2 v2 ∧
        u2 ≠ u1 ∧ u2 ≠ v1 ∧ v2 ≠ u1 ∧ v2 ≠ v1 := by
  rw [crossing, decide_eq_true_eq]
  have hprod : (u1 - u2) * (u1 - v2) * (v1 - u2) * (v1 - v2) =
      ((u1 - u2) * (v1 - u2)) * ((u1 - v2) * (v1 - v2)) := by ring
  rw [hprod, mul_neg_iff]
  rw [between_sign_neg h1, between_sign_neg h1, between_sign_pos h1,
    between_sign_pos h1]
  unfold ExactlyOneBetween StrictlyBetween
  omega

theorem crossing_characterization_witness :
    (1 : ℤ) ≤ 4 ∧ (2 : ℤ) ≤ 5 ∧
      (crossing ((1 : ℤ), (4 : ℤ)) ((2 : ℤ), (5 : ℤ)) = true ↔
        ExactlyOneBetween 1 4 2 5 ∧
          (2 : ℤ) ≠ 1 ∧ (2 : ℤ) ≠ 4 ∧ (5 : ℤ) ≠ 1 ∧ (5 : ℤ) ≠ 4) :=
  ⟨by decide, by decide, crossing_characterization 1 4 2 5 (by decide) (by decide)⟩
/-! ### The NCPQM variable coding at vertex `0` -/

/-- C5: on the pseudo-graph with the single vertex `0` carrying a self-loop
(vertex `0` does occur in the auxiliary graphs, whose vertices are the
frontier indices), `_var` gives the canonical edge `(0, 0)` the literal id
`bound * 0 + 0 = 0`, which is not strictly positive — `0` is not a legal
CNF literal. -/
theorem ncVar_zero_loop_not_positive :
    ncVar [(0, [0])] 0 0 = 0 ∧ ¬0 < ncVar [(0, [0])] 0 0 ∧
      ncEdges [(0, [0])] = [(0, 0)] := by
  refine ⟨by decide, by decide, by decide⟩
/-! ### The optional constraints argument -/

/-- C10: with the declared default `constraints = None` and at least one
vertex, `_formula` dereferences the absent mapping at vertex `0`
(`None.get`, an `AttributeError`), so `colorable` produces no boolean: the
checked computation returns `none`. -/
theorem colorable_default_constraints_fails (adj : List (List ℕ))
    (h : 1 ≤ adj.length) : colorableChecked adj none = none := by
  have hseq : seqVertexClauses none (List.range adj.length) = none := by
    obtain ⟨n, hn⟩ : ∃ n, adj.length = n + 1 := ⟨adj.length - 1, by omega⟩
    rw [hn, List.range_succ_eq_map]
    simp [seqVertexClauses, vertexClausesChecked]
  rw [colorableChecked, tcFormulaChecked, hseq]
  rfl

theorem colorable_default_constraints_fails_witness :
    1 ≤ ([[]] : List (List ℕ)).length ∧ colorableChecked [[]] none = none :=
  ⟨by decide, colorable_default_constraints_fails [[]] (by decide)⟩
/-! ### The fixed-point loop: verdict and rank invariant -/

theorem scanStep_empty_flag {syms : List (List ℕ)} {k : ℕ} {m : RedMap}
    (hempty : (scanStep syms k m).1 = []) :
    (scanStep syms k m).2 = true ↔ ∃ p ∈ m, p.2.reducible = false := by
  have hall : ∀ p ∈ m, p.2.reducible = false →
      (isColoringReducible syms m k p.1).1 = false := by
    intro p hp hpred
    have := List.filterMap_eq_nil_iff.mp hempty p hp
    rw [if_neg (by simp [hpred])] at this
    by_cases hr : (isColoringReducible syms m k p.1).1 = true
    · rw [if_pos hr] at this; exact absurd this (by simp)
    · simpa using hr
  constructor
  · intro hany
    obtain ⟨p, hp, hpp⟩ := List.any_eq_true.mp hany
    simp only [Bool.and_eq_true, Bool.not_eq_true'] at hpp
    exact ⟨p, hp, hpp.1⟩
  · rintro ⟨p, hp, hpred⟩
    refine List.any_eq_true.mpr ⟨p, hp, ?_⟩
    simp only [Bool.and_eq_true, Bool.not_eq_true']
    exact ⟨hpred, hall p hp hpred⟩

theorem fixLoop_verdict (syms : List (List ℕ)) (k : ℕ) :
    ∀ (fuel i : ℕ) (m : RedMap) (res : RedMap × Bool),
      fixLoop syms k fuel i m = some res →
      (res.2 = true ↔ ∀ p ∈ res.1, p.2.reducible = true) := by
  intro fuel
  induction fuel with
  | zero => intro i m res h; simp [fixLoop] at h
  | succ fuel ih =>
    intro i m res h
    rw [fixLoop] at h
    by_cases hempty : (scanStep syms k m).1.isEmpty = true
    · rw [if_pos hempty] at h
      simp only [Option.some.injEq] at h
      have hnil : (scanStep syms k m).1 = [] := by
        rwa [List.isEmpty_iff] at hempty
      have hflag := scanStep_empty_flag hnil
      rw [← h]
      simp only [Bool.not_eq_true']
      constructor
      · intro hfalse p hp
        by_cases hr : p.2.reducible = true
        · exact hr
        · exact absurd (hflag.mpr ⟨p, hp, by simpa using hr⟩) (by simp [hfalse])
      · intro hall
        by_cases hs : (scanStep syms k m).2 = true
        · obtain ⟨p, hp, hpred⟩ := hflag.mp hs
          exact absurd (hall p hp) (by simp [hpred])
        · simpa using hs
    · rw [if_neg hempty] at h
      exact ih _ _ _ h
/-- C2: `is_pattern_reducible` returns `true` exactly when, at loop exit,
every representative of `repr_to_red` is marked reducible, and `false`
exactly when some representative remains non-reducible. -/
theorem pattern_verdict (lg : List (List ℕ)) (og : List ℕ) (syms : List (List ℕ))
    (res : RedMap × Bool) (hterm : patternFix lg og syms = some res) :
    isPatternReducible lg og syms = some true ↔ ∀ p ∈ res.1, p.2.reducible = true := by
  have hfix : fixLoop syms og.length ((initRed lg og syms).length + 2) 1
      (initRed lg og syms) = some res := hterm
  have hverdict := fixLoop_verdict syms og.length _ _ _ _ hfix
  rw [isPatternReducible, hterm, Option.map_some', ← hverdict]
  simp

theorem pattern_verdict_witness :
    patternFix [[1], [0, 2], [1]] [0, 2] [[0, 1], [1, 0]] =
      some ([([1, 1], ⟨true, 0, "extendable"⟩), ([1, 2], ⟨true, 0, "extendable"⟩)],
        true) ∧
    (isPatternReducible [[1], [0, 2], [1]] [0, 2] [[0, 1], [1, 0]] = some true ↔
      ∀ p ∈ [([1, 1], (⟨true, 0, "extendable"⟩ : RedInfo)),
          ([1, 2], (⟨true, 0, "extendable"⟩ : RedInfo))], p.2.reducible = true) :=
  ⟨by decide,
    pattern_verdict [[1], [0, 2], [1]] [0, 2] [[0, 1], [1, 0]]
      ([([1, 1], ⟨true, 0, "extendable"⟩), ([1, 2], ⟨true, 0, "extendable"⟩)], true)
      (by decide)⟩
theorem reaches_invariant {lg : List (List ℕ)} {og : List ℕ}
    {syms : List (List ℕ)} {i : ℕ} {m : RedMap}
    (h : Reaches lg og syms i m) :
    ∀ p ∈ m, (p.2.reducible = true ∧ 0 ≤ p.2.rank ∧ p.2.rank < (i : ℤ)) ∨
      (p.2.reducible = false ∧ p.2.rank = -1) := by
  induction h with
  | init =>
    intro p hp
    obtain ⟨c, -, rfl⟩ := List.mem_map.mp hp
    by_cases hcol : colorable lg (constraintsOf og c) = true
    · rw [if_pos hcol]
      exact Or.inl ⟨rfl, by norm_num⟩
    · rw [if_neg hcol]
      exact Or.inr ⟨rfl, rfl⟩
  | step hreach hne ih =>
    rename_i i m
    intro p hp
    obtain ⟨q, hq, rfl⟩ := List.mem_map.mp hp
    cases hfind : (scanStep syms og.length m).1.find? (fun r => decide (r.1 = q.1)) with
    | some r =>
      dsimp only
      refine Or.inl ⟨rfl, ?_, ?_⟩
      · exact_mod_cast Int.ofNat_nonneg i
      · exact_mod_cast Nat.lt_succ_self i
    | none =>
      dsimp only
      rcases ih q hq with ⟨h1, h2, h3⟩ | hr
      · exact Or.inl ⟨h1, h2, by push_cast; omega⟩
      · exact Or.inr hr

/-- C3: at every reachable iteration `i` of the fixed-point loop, an entry of
`repr_to_red` is marked reducible exactly when its rank is finite and `< i`;
consequently the guard `repr_to_red[representative(swap)]["reducible"]` that
`make_aux_graph` consults during iteration `i` (a `lookupRed` into the
iteration's unmutated map, the discoveries of the iteration being buffered in
`new`) observes exactly the representatives of rank `< i`. -/
theorem fixpoint_guard_invariant (lg : List (List ℕ)) (og : List ℕ)
    (syms : List (List ℕ)) (i : ℕ) (m : RedMap)
    (h : Reaches lg og syms i m) :
    (∀ p ∈ m, (p.2.reducible = true ↔ 0 ≤ p.2.rank ∧ p.2.rank < (i : ℤ))) ∧
      (∀ c : Coloring, ((lookupRed m c).reducible = true ↔
        0 ≤ (lookupRed m c).rank ∧ (lookupRed m c).rank < (i : ℤ))) := by
  have hinv := reaches_invariant h
  have hentry : ∀ p ∈ m, (p.2.reducible = true ↔ 0 ≤ p.2.rank ∧ p.2.rank < (i : ℤ)) := by
    intro p hp
    rcases hinv p hp with ⟨h1, h2, h3⟩ | ⟨h1, h2⟩
    · simp [h1, h2, h3]
    · rw [h1, h2]
      constructor
      · intro hfalse; exact absurd hfalse (by simp)
      · rintro ⟨ha, -⟩; omega
  refine ⟨hentry, ?_⟩
  intro c
  rw [lookupRed]
  cases hfind : m.find? (fun p => decide (p.1 = c)) with
  | some p =>
    simpa using hentry p (List.mem_of_find?_eq_some hfind)
  | none =>
    simp only [Option.map_none', Option.getD_none]
    constructor
    · intro hfalse; exact absurd hfalse (by simp)
    · rintro ⟨ha, -⟩; omega

theorem fixpoint_guard_invariant_witness :
    (lookupRed (initRed [[1], [0, 2], [1]] [0, 2] [[0, 1], [1, 0]]) [1, 1]).reducible
        = true ↔
      0 ≤ (lookupRed (initRed [[1], [0, 2], [1]] [0, 2] [[0, 1], [1, 0]]) [1, 1]).rank ∧
        (lookupRed (initRed [[1], [0, 2], [1]] [0, 2] [[0, 1], [1, 0]]) [1, 1]).rank
          < ((1 : ℕ) : ℤ) :=
  (fixpoint_guard_invariant [[1], [0, 2], [1]] [0, 2] [[0, 1], [1, 0]] 1
    (initRed [[1], [0, 2], [1]] [0, 2] [[0, 1], [1, 0]]) Reaches.init).2 [1, 1]
/-! ### The pattern `p_22` -/

/-- C9: the pattern `p_22` (line graph `[[1], [0, 2], [1]]`, outgoing
`[0, 2]`, symmetries `[[0, 1], [1, 0]]`) is reported reducible. -/
theorem p22_reducible :
    isPatternReducible [[1], [0, 2], [1]] [0, 2] [[0, 1], [1, 0]] = some true := by
  decide
/-! ### The coloring quotient: minima, digits, permutations -/

theorem getD_map_lt {l : List ℕ} {g : ℕ → ℕ} {i : ℕ} (h : i < l.length) (d d2 : ℕ) :
    (l.map g).getD i d = g (l.getD i d2) := by
  rw [List.getD_eq_getElem?_getD, List.getElem?_map, List.getD_eq_getElem?_getD]
  rw [List.getElem?_eq_getElem h]
  rfl

theorem getD_mem_of_lt {l : List ℕ} {i : ℕ} (h : i < l.length) (d : ℕ) :
    l.getD i d ∈ l := by
  rw [List.getD_eq_getElem?_getD, List.getElem?_eq_getElem h]
  exact List.getElem_mem h

theorem getD_inj_of_nodup {l : List ℕ} (hn : l.Nodup) {a b : ℕ}
    (ha : a < l.length) (hb : b < l.length) (h : l.getD a 0 = l.getD b 0) : a = b := by
  rw [List.getD_eq_getElem?_getD, List.getElem?_eq_getElem ha,
    List.getD_eq_getElem?_getD, List.getElem?_eq_getElem hb] at h
  have hinj := List.nodup_iff_injective_get.mp hn
  have h2 := @hinj ⟨a, ha⟩ ⟨b, hb⟩ (by simpa using h)
  simpa using congrArg Fin.val h2

theorem pyMinGo_spec (key : α → ℕ) :
    ∀ (l : List α) (best : α),
      (pyMinGo key best l = best ∨ pyMinGo key best l ∈ l) ∧
        key (pyMinGo key best l) ≤ key best ∧
        ∀ x ∈ l, key (pyMinGo key best l) ≤ key x := by
  intro l
  induction l with
  | nil => intro best; exact ⟨Or.inl rfl, le_refl _, by simp⟩
  | cons x xs ih =>
    intro best
    rw [pyMinGo]
    by_cases hx : key x < key best
    · rw [if_pos hx]
      obtain ⟨hmem, hle, hall⟩ := ih x
      refine ⟨?_, ?_, ?_⟩
      · rcases hmem with h | h
        · exact Or.inr (by rw [h]; exact List.mem_cons_self _ _)
        · exact Or.inr (List.mem_cons_of_mem _ h)
      · exact le_trans hle (le_of_lt hx)
      · intro y hy
        rcases List.mem_cons.mp hy with rfl | hmem2
        · exact hle
        · exact hall y hmem2
    · rw [if_neg hx]
      obtain ⟨hmem, hle, hall⟩ := ih best
      refine ⟨?_, hle, ?_⟩
      · rcases hmem with h | h
        · exact Or.inl h
        · exact Or.inr (List.mem_cons_of_mem _ h)
      · intro y hy
        rcases List.mem_cons.mp hy with rfl | hmem2
        · exact le_trans hle (by omega)
        · exact hall y hmem2

theorem pyMin_spec {key : α → ℕ} {l : List α} {m : α} (h : pyMin key l = some m) :
    m ∈ l ∧ ∀ x ∈ l, key m ≤ key x := by
  cases l with
  | nil => simp [pyMin] at h
  | cons x xs =>
    rw [pyMin] at h
    simp only [Option.some.injEq] at h
    obtain ⟨hmem, hle, hall⟩ := pyMinGo_spec key xs x
    subst h
    refine ⟨?_, ?_⟩
    · rcases hmem with h | h
      · rw [h]; exact List.mem_cons_self _ _
      · exact List.mem_cons_of_mem _ h
    · intro y hy
      rcases List.mem_cons.mp hy with rfl | hmem2
      · exact hle
      · exact hall y hmem2

theorem pyMin_isSome (key : α → ℕ) (l : List α) (h : l ≠ []) :
    ∃ m, pyMin key l = some m := by
  cases l with
  | nil => exact absurd rfl h
  | cons x xs => exact ⟨_, rfl⟩

theorem pyMin_congr {key : α → ℕ} {l1 l2 : List α}
    (hset : ∀ x, x ∈ l1 ↔ x ∈ l2)
    (hinj : ∀ x ∈ l1, ∀ y ∈ l1, key x = key y → x = y)
    (hne : l1 ≠ []) :
    pyMin key l1 = pyMin key l2 := by
  have hne2 : l2 ≠ [] := by
    cases l1 with
    | nil => exact absurd rfl hne
    | cons x xs =>
      intro hnil
      have := (hset x).mp (List.mem_cons_self _ _)
      rw [hnil] at this
      exact absurd this (List.not_mem_nil x)
  obtain ⟨m1, hm1⟩ := pyMin_isSome key l1 hne
  obtain ⟨m2, hm2⟩ := pyMin_isSome key l2 hne2
  obtain ⟨hmem1, hall1⟩ := pyMin_spec hm1
  obtain ⟨hmem2, hall2⟩ := pyMin_spec hm2
  have hmem2' : m2 ∈ l1 := (hset m2).mpr hmem2
  have h12 : key m1 ≤ key m2 := hall1 m2 hmem2'
  have h21 : key m2 ≤ key m1 := hall2 m1 ((hset m1).mp hmem1)
  have : m1 = m2 := hinj m1 hmem1 m2 hmem2' (le_antisymm h12 h21)
  rw [hm1, hm2, this]
theorem coloringToInt_go (xs : List ℕ) :
    ∀ acc, xs.foldl (fun a d => 10 * a + d) acc =
      acc * 10 ^ xs.length + xs.foldl (fun a d => 10 * a + d) 0 := by
  induction xs with
  | nil => intro acc; simp
  | cons d xs ih =>
    intro acc
    rw [List.foldl_cons, List.foldl_cons, ih (10 * acc + d), ih (10 * 0 + d)]
    simp only [List.length_cons, pow_succ]
    ring

theorem coloringToInt_lt (xs : List ℕ) (hd : ∀ d ∈ xs, d ≤ 9) :
    coloringToInt xs < 10 ^ xs.length := by
  induction xs with
  | nil => simp [coloringToInt]
  | cons d xs ih =>
    have hd9 : d ≤ 9 := hd d (List.mem_cons_self _ _)
    have htail : coloringToInt xs < 10 ^ xs.length :=
      ih (fun x hx => hd x (List.mem_cons_of_mem _ hx))
    rw [coloringToInt, List.foldl_cons, coloringToInt_go]
    rw [coloringToInt] at htail
    have hlen : (d :: xs).length = xs.length + 1 := rfl
    rw [hlen]
    have h10 : (0 : ℕ) < 10 ^ xs.length := Nat.pos_pow_of_pos _ (by omega)
    have hmul : (10 * 0 + d) * 10 ^ xs.length ≤ 9 * 10 ^ xs.length :=
      Nat.mul_le_mul_right (10 ^ xs.length) (by omega)
    rw [pow_succ]
    omega

theorem coloringToInt_inj : ∀ {a b : Coloring}, a.length = b.length →
    (∀ d ∈ a, 1 ≤ d ∧ d ≤ 3) → (∀ d ∈ b, 1 ≤ d ∧ d ≤ 3) →
    coloringToInt a = coloringToInt b → a = b := by
  intro a
  induction a with
  | nil =>
    intro b hlen _ _ _
    exact (List.length_eq_zero.mp hlen.symm).symm
  | cons x xs ih =>
    intro b hlen ha hb heq
    cases b with
    | nil => simp at hlen
    | cons y ys =>
      have hlen2 : xs.length = ys.length := by simpa using hlen
      simp only [coloringToInt] at heq
      rw [List.foldl_cons, List.foldl_cons, coloringToInt_go xs (10 * 0 + x),
        coloringToInt_go ys (10 * 0 + y), hlen2] at heq
      set P := 10 ^ ys.length with hP
      have hPpos : 0 < P := Nat.pos_pow_of_pos _ (by omega)
      set u := xs.foldl (fun a d => 10 * a + d) 0 with hu
      set w := ys.foldl (fun a d => 10 * a + d) 0 with hw
      have hxs : u < P := by
        rw [hu, hP, ← hlen2]
        exact coloringToInt_lt xs
          (fun d hd => by have := ha d (List.mem_cons_of_mem _ hd); omega)
      have hys : w < P := by
        rw [hw, hP]
        exact coloringToInt_lt ys
          (fun d hd => by have := hb d (List.mem_cons_of_mem _ hd); omega)
      have h1 : x * P + u = y * P + w := by
        have : (10 * 0 + x) * P + u = (10 * 0 + y) * P + w := heq
        simpa using this
      have hxy : x = y := by
        have hlt1 : x * P < (y + 1) * P := by
          calc x * P ≤ x * P + u := Nat.le_add_right _ _
            _ = y * P + w := h1
            _ < y * P + P := by omega
            _ = (y + 1) * P := by ring
        have hlt2 : y * P < (x + 1) * P := by
          calc y * P ≤ y * P + w := Nat.le_add_right _ _
            _ = x * P + u := h1.symm
            _ < x * P + P := by omega
            _ = (x + 1) * P := by ring
        have := Nat.lt_of_mul_lt_mul_right hlt1
        have := Nat.lt_of_mul_lt_mul_right hlt2
        omega
      subst hxy
      have huw : u = w := Nat.add_left_cancel h1
      have htail : xs = ys := by
        apply ih hlen2 (fun d hd => ha d (List.mem_cons_of_mem _ hd))
          (fun d hd => hb d (List.mem_cons_of_mem _ hd))
        rw [coloringToInt, coloringToInt, ← hu, ← hw]
        exact huw
      rw [htail]
theorem cpl_ne_nil : colorPermList ≠ [] := by decide

theorem cpl_length : ∀ σ ∈ colorPermList, σ.length = 3 := by decide

theorem cpl_maps : ∀ σ ∈ colorPermList, ∀ d < 4, 1 ≤ d →
    1 ≤ σ.getD (d - 1) 0 ∧ σ.getD (d - 1) 0 ≤ 3 := by decide

theorem cpl_comp_mem : ∀ σ ∈ colorPermList, ∀ τ ∈ colorPermList,
    compColor τ σ ∈ colorPermList := by decide

theorem cpl_comp_surj : ∀ σ ∈ colorPermList, ∀ ρ ∈ colorPermList,
    ∃ τ ∈ colorPermList, compColor τ σ = ρ := by decide

theorem permute_length (c : Coloring) (σ : List ℕ) :
    (permute c σ).length = c.length := List.length_map _ _

theorem permute_wf {c : Coloring} {σ : List ℕ} (hc : WFColoring c)
    (hσ : σ ∈ colorPermList) : WFColoring (permute c σ) := by
  intro d hd
  obtain ⟨x, hx, rfl⟩ := List.mem_map.mp hd
  obtain ⟨h1, h3⟩ := hc x hx
  exact cpl_maps σ hσ x (by omega) h1

theorem permute_permute {c : Coloring} {σ τ : List ℕ} (hc : WFColoring c)
    (hσ : σ ∈ colorPermList) :
    permute (permute c σ) τ = permute c (compColor τ σ) := by
  rw [permute, permute, permute, compColor, List.map_map]
  apply List.map_congr_left
  intro d hd
  obtain ⟨h1, h3⟩ := hc d hd
  have hlt : d - 1 < σ.length := by rw [cpl_length σ hσ]; omega
  simp only [Function.comp_apply]
  rw [getD_map_lt hlt 0 0]

theorem orbit_mem_iff {c x : Coloring} {σ : List ℕ} (hc : WFColoring c)
    (hσ : σ ∈ colorPermList) :
    x ∈ colorPermList.map (permute (permute c σ)) ↔
      x ∈ colorPermList.map (permute c) := by
  constructor
  · intro hx
    obtain ⟨τ, hτ, rfl⟩ := List.mem_map.mp hx
    exact List.mem_map.mpr ⟨compColor τ σ, cpl_comp_mem σ hσ τ hτ,
      (permute_permute hc hσ).symm⟩
  · intro hx
    obtain ⟨ρ, hρ, rfl⟩ := List.mem_map.mp hx
    obtain ⟨τ, hτ, hcomp⟩ := cpl_comp_surj σ hσ ρ hρ
    exact List.mem_map.mpr ⟨τ, hτ, by rw [permute_permute hc hσ, hcomp]⟩

theorem orbit_wf {c x : Coloring} (hc : WFColoring c)
    (hx : x ∈ colorPermList.map (permute c)) :
    WFColoring x ∧ x.length = c.length := by
  obtain ⟨σ, hσ, rfl⟩ := List.mem_map.mp hx
  exact ⟨permute_wf hc hσ, permute_length c σ⟩

theorem colorRepr_eq_pyMin (c : Coloring) :
    ∃ m, pyMin coloringToInt (colorPermList.map (permute c)) = some m ∧
      colorRepr c = m := by
  obtain ⟨m, hm⟩ := pyMin_isSome coloringToInt
    (colorPermList.map (permute c)) (by simp [cpl_ne_nil])
  exact ⟨m, hm, by rw [colorRepr, hm, Option.getD_some]⟩

theorem colorRepr_mem_orbit (c : Coloring) :
    colorRepr c ∈ colorPermList.map (permute c) := by
  obtain ⟨m, hm, heq⟩ := colorRepr_eq_pyMin c
  rw [heq]
  exact (pyMin_spec hm).1

theorem colorRepr_wf {c : Coloring} (hc : WFColoring c) :
    WFColoring (colorRepr c) ∧ (colorRepr c).length = c.length :=
  orbit_wf hc (colorRepr_mem_orbit c)

theorem colorRepr_exists_perm (c : Coloring) :
    ∃ σ ∈ colorPermList, colorRepr c = permute c σ := by
  obtain ⟨σ, hσ, heq⟩ := List.mem_map.mp (colorRepr_mem_orbit c)
  exact ⟨σ, hσ, heq.symm⟩

theorem colorRepr_permute {c : Coloring} {σ : List ℕ} (hc : WFColoring c)
    (hσ : σ ∈ colorPermList) : colorRepr (permute c σ) = colorRepr c := by
  obtain ⟨m1, hm1, he1⟩ := colorRepr_eq_pyMin (permute c σ)
  obtain ⟨m2, hm2, he2⟩ := colorRepr_eq_pyMin c
  rw [he1, he2]
  have hcongr : pyMin coloringToInt (colorPermList.map (permute (permute c σ))) =
      pyMin coloringToInt (colorPermList.map (permute c)) := by
    apply pyMin_congr (fun x => orbit_mem_iff hc hσ)
    · intro x hx y hy hkey
      obtain ⟨hwx, hlx⟩ := orbit_wf hc ((orbit_mem_iff hc hσ).mp hx)
      obtain ⟨hwy, hly⟩ := orbit_wf hc ((orbit_mem_iff hc hσ).mp hy)
      exact coloringToInt_inj (hlx.trans hly.symm) hwx hwy hkey
    · simp [cpl_ne_nil]
  rw [hcongr, hm2] at hm1
  exact (Option.some_inj.mp hm1).symm
theorem applySym_length (c : Coloring) (s : List ℕ) :
    (applySym c s).length = s.length := List.length_map _ _

theorem applySym_wf {c : Coloring} {s : List ℕ} (hc : WFColoring c)
    (hs : ∀ x ∈ s, x < c.length) : WFColoring (applySym c s) := by
  intro d hd
  obtain ⟨i, hi, rfl⟩ := List.mem_map.mp hd
  exact hc _ (getD_mem_of_lt (hs i hi) 0)

theorem applySym_permute {c : Coloring} {σ : List ℕ} {s : List ℕ}
    (hs : ∀ x ∈ s, x < c.length) :
    applySym (permute c σ) s = permute (applySym c s) σ := by
  rw [applySym, permute, permute, applySym, List.map_map]
  apply List.map_congr_left
  intro i hi
  simp only [Function.comp_apply]
  rw [getD_map_lt (hs i hi) 0 0]

theorem applySym_applySym {c : Coloring} {s t : List ℕ}
    (ht : ∀ x ∈ t, x < s.length) :
    applySym (applySym c s) t = applySym c (compSym s t) := by
  rw [applySym, applySym, compSym, applySym, List.map_map]
  apply List.map_congr_left
  intro i hi
  simp only [Function.comp_apply]
  rw [getD_map_lt (ht i hi) 0 0]

theorem compSym_inj {k : ℕ} {π : List ℕ} (hπlen : π.length = k)
    (hπnodup : π.Nodup) {s t : List ℕ} (hslen : s.length = k)
    (hs : ∀ x ∈ s, x < k) (htlen : t.length = k) (ht : ∀ x ∈ t, x < k)
    (h : compSym π s = compSym π t) : s = t := by
  rw [compSym, compSym] at h
  apply List.ext_getElem (by omega)
  intro i h1 h2
  have hi : i < k := by omega
  have hget := congrArg (fun l => l.getD i 0) h
  simp only at hget
  rw [getD_map_lt (by omega) 0 0, getD_map_lt (by omega) 0 0] at hget
  have hsi : s.getD i 0 < π.length := by
    rw [hπlen]; exact hs _ (getD_mem_of_lt (by omega) 0)
  have hti : t.getD i 0 < π.length := by
    rw [hπlen]; exact ht _ (getD_mem_of_lt (by omega) 0)
  have := getD_inj_of_nodup hπnodup hsi hti hget
  rwa [List.getD_eq_getElem?_getD, List.getElem?_eq_getElem h1,
    List.getD_eq_getElem?_getD, List.getElem?_eq_getElem h2] at this
  
theorem compSym_left_surj {k : ℕ} {syms : List (List ℕ)} (hsyms : WFSyms k syms)
    (hclosed : ∀ s ∈ syms, ∀ t ∈ syms, compSym s t ∈ syms)
    {π : List ℕ} (hπ : π ∈ syms) :
    ∀ t ∈ syms, ∃ s ∈ syms, compSym π s = t := by
  intro t ht
  classical
  set F : Finset (List ℕ) := syms.toFinset with hF
  have hmapsto : ∀ s ∈ F, compSym π s ∈ F := by
    intro s hsF
    rw [hF, List.mem_toFinset] at hsF ⊢
    exact hclosed π hπ s hsF
  have hinj : Set.InjOn (compSym π) F := by
    intro s hsF t2 ht2F heq
    simp only [hF, Finset.coe_sort_coe, Finset.mem_coe, List.mem_toFinset] at hsF ht2F
    obtain ⟨hπlen, hπmem, hπnodup⟩ := hsyms π hπ
    obtain ⟨hsl, hsm, -⟩ := hsyms s hsF
    obtain ⟨htl, htm, -⟩ := hsyms t2 ht2F
    exact compSym_inj hπlen hπnodup hsl hsm htl htm heq
  have himage : F.image (compSym π) = F := by
    apply Finset.eq_of_subset_of_card_le
    · intro x hx
      obtain ⟨s, hsF, rfl⟩ := Finset.mem_image.mp hx
      exact hmapsto s hsF
    · rw [Finset.card_image_of_injOn hinj]
  have htF : t ∈ F := by rw [hF, List.mem_toFinset]; exact ht
  rw [← himage] at htF
  obtain ⟨s, hsF, hcomp⟩ := Finset.mem_image.mp htF
  rw [hF, List.mem_toFinset] at hsF
  exact ⟨s, hsF, hcomp⟩
theorem reprOf_list_eq {k : ℕ} {syms : List (List ℕ)} {c : Coloring}
    (hsyms : WFSyms k syms) (hc : WFColoring c) (hck : c.length = k) :
    syms.map (fun s => colorRepr (applySym (colorRepr c) s)) =
      syms.map (fun s => colorRepr (applySym c s)) := by
  apply List.map_congr_left
  intro s hs
  obtain ⟨σc, hσc, heq⟩ := colorRepr_exists_perm c
  obtain ⟨hsl, hsm, -⟩ := hsyms s hs
  have hslt : ∀ x ∈ s, x < c.length := fun x hx => by
    rw [hck]; exact hsm x hx
  rw [heq, applySym_permute hslt,
    colorRepr_permute (applySym_wf hc hslt) hσc]

theorem representative_eq_min {k : ℕ} {syms : List (List ℕ)} {c : Coloring}
    (hsyms : WFSyms k syms) (hne : syms ≠ []) (hc : WFColoring c)
    (hck : c.length = k) :
    ∃ m, pyMin coloringToInt (syms.map (fun s => colorRepr (applySym c s))) =
        some m ∧ representative syms c = m := by
  obtain ⟨m, hm⟩ := pyMin_isSome coloringToInt
    (syms.map (fun s => colorRepr (applySym c s))) (by simpa using hne)
  refine ⟨m, hm, ?_⟩
  rw [representative, reprOf, reprOf_list_eq hsyms hc hck, hm, Option.getD_some]

theorem representative_permute {syms : List (List ℕ)} {c : Coloring}
    {σ : List ℕ} (hc : WFColoring c) (hσ : σ ∈ colorPermList) :
    representative syms (permute c σ) = representative syms c := by
  rw [representative, representative, colorRepr_permute hc hσ]

theorem representative_applySym {k : ℕ} {syms : List (List ℕ)} {c : Coloring}
    {π : List ℕ} (hsyms : WFSyms k syms) (hne : syms ≠ [])
    (hclosed : ∀ s ∈ syms, ∀ t ∈ syms, compSym s t ∈ syms)
    (hc : WFColoring c) (hck : c.length = k) (hπ : π ∈ syms) :
    representative syms (applySym c π) = representative syms c := by
  obtain ⟨hπl, hπm, -⟩ := hsyms π hπ
  have hπlt : ∀ x ∈ π, x < c.length := fun x hx => by rw [hck]; exact hπm x hx
  have hcπ : WFColoring (applySym c π) := applySym_wf hc hπlt
  have hcπk : (applySym c π).length = k := by rw [applySym_length, hπl]
  obtain ⟨m1, hm1, he1⟩ := representative_eq_min hsyms hne hcπ hcπk
  obtain ⟨m2, hm2, he2⟩ := representative_eq_min hsyms hne hc hck
  rw [he1, he2]
  have hL1 : syms.map (fun s => colorRepr (applySym (applySym c π) s)) =
      syms.map (fun s => colorRepr (applySym c (compSym π s))) := by
    apply List.map_congr_left
    intro s hs
    obtain ⟨hsl, hsm, -⟩ := hsyms s hs
    have hslt : ∀ x ∈ s, x < π.length := fun x hx => by rw [hπl]; exact hsm x hx
    rw [applySym_applySym hslt]
  have hwfmem : ∀ x ∈ syms.map (fun s => colorRepr (applySym c s)),
      WFColoring x ∧ x.length = k := by
    intro x hx
    obtain ⟨s, hs, rfl⟩ := List.mem_map.mp hx
    obtain ⟨hsl, hsm, -⟩ := hsyms s hs
    have hslt : ∀ y ∈ s, y < c.length := fun y hy => by rw [hck]; exact hsm y hy
    obtain ⟨hw, hl⟩ := colorRepr_wf (applySym_wf hc hslt)
    exact ⟨hw, by rw [hl, applySym_length, hsl]⟩
  have hset : ∀ x, x ∈ syms.map (fun s => colorRepr (applySym (applySym c π) s)) ↔
      x ∈ syms.map (fun s => colorRepr (applySym c s)) := by
    intro x
    rw [hL1]
    constructor
    · intro hx
      obtain ⟨s, hs, rfl⟩ := List.mem_map.mp hx
      exact List.mem_map.mpr ⟨compSym π s, hclosed π hπ s hs, rfl⟩
    · intro hx
      obtain ⟨t, ht, rfl⟩ := List.mem_map.mp hx
      obtain ⟨s, hs, hcomp⟩ := compSym_left_surj hsyms hclosed hπ t ht
      exact List.mem_map.mpr ⟨s, hs, by rw [hcomp]⟩
  have hcongr : pyMin coloringToInt
      (syms.map (fun s => colorRepr (applySym (applySym c π) s))) =
      pyMin coloringToInt (syms.map (fun s => colorRepr (applySym c s))) := by
    apply pyMin_congr hset
    · intro x hx y hy hkey
      obtain ⟨hwx, hlx⟩ := hwfmem x ((hset x).mp hx)
      obtain ⟨hwy, hly⟩ := hwfmem y ((hset y).mp hy)
      exact coloringToInt_inj (hlx.trans hly.symm) hwx hwy hkey
    · simpa using hne
  rw [hcongr, hm2] at hm1
  exact (Option.some_inj.mp hm1).symm

/-- C7 counterexample: the symmetry list `[[0,1,2],[1,2,0]]` starts with the
identity on `{0, 1, 2}` (but is not closed under composition); with the
identity color permutation, the symmetry `π = [1,2,0]` of the list, and the
coloring `c = [1,1,2]`, the representatives of `σ ∘ c ∘ π` and of `c`
differ. -/
theorem representative_equivariance_counterexample :
    ([[0, 1, 2], [1, 2, 0]] : List (List ℕ)).headD [] = List.range 3 ∧
      [1, 2, 0] ∈ ([[0, 1, 2], [1, 2, 0]] : List (List ℕ)) ∧
      [1, 2, 3] ∈ colorPermList ∧
      WFColoring [1, 1, 2] ∧
      representative [[0, 1, 2], [1, 2, 0]]
          (permute (applySym [1, 1, 2] [1, 2, 0]) [1, 2, 3]) ≠
        representative [[0, 1, 2], [1, 2, 0]] [1, 1, 2] := by
  refine ⟨by decide, by decide, by decide, by decide, by decide⟩

/-- C7 (amended): for every frontier size `k`, every symmetry list made of
permutations of `{0, …, k-1}` that starts with the identity *and is closed
under composition*, every coloring `c` of length `k` over `{1, 2, 3}`, every
color permutation `σ` and every listed symmetry `π`:
`representative (σ ∘ c ∘ π) = representative c`. -/
theorem representative_equivariance (k : ℕ) (syms : List (List ℕ))
    (c : Coloring) (σ π : List ℕ)
    (hsyms : WFSyms k syms) (_hfirst : syms.headD [] = List.range k)
    (hne : syms ≠ [])
    (hclosed : ∀ s ∈ syms, ∀ t ∈ syms, compSym s t ∈ syms)
    (hc : WFColoring c) (hck : c.length = k)
    (hσ : σ ∈ colorPermList) (hπ : π ∈ syms) :
    representative syms (permute (applySym c π) σ) = representative syms c := by
  obtain ⟨hπl, hπm, -⟩ := hsyms π hπ
  have hπlt : ∀ x ∈ π, x < c.length := fun x hx => by rw [hck]; exact hπm x hx
  rw [representative_permute (applySym_wf hc hπlt) hσ]
  exact representative_applySym hsyms hne hclosed hc hck hπ

theorem representative_equivariance_witness :
    WFSyms 2 [[0, 1], [1, 0]] ∧
      representative [[0, 1], [1, 0]] (permute (applySym [1, 2] [1, 0]) [2, 1, 3]) =
        representative [[0, 1], [1, 0]] [1, 2] :=
  ⟨by decide,
    representative_equivariance 2 [[0, 1], [1, 0]] [1, 2] [2, 1, 3] [1, 0]
      (by decide) (by decide) (by decide) (by decide)
      (by decide) (by decide) (by decide) (by decide)⟩
/-! ### The 3-coloring reduction is correct -/

theorem evalLit_pos {v : ℤ → Bool} {l : ℤ} (h : 0 < l) : evalLit v l = v l := by
  rw [evalLit, if_pos h]

theorem evalLit_neg_of_pos {v : ℤ → Bool} {l : ℤ} (h : 0 < l) :
    evalLit v (-l) = !v l := by
  rw [evalLit, if_neg (by omega), neg_neg]

theorem cvar_pos {u c : ℕ} (h : 1 ≤ c) : 0 < cvar u c := by
  rw [cvar]; push_cast; omega

theorem mem_tcFormula {adj : List (List ℕ)} {constraints : ℕ → ℕ} {cl : Clause} :
    cl ∈ tcFormula adj constraints ↔
      (∃ u < adj.length, cl ∈ vertexClauses constraints u) ∨
        (∃ e ∈ tcEdges adj, cl ∈ edgeClauses e) := by
  simp [tcFormula, List.mem_append, List.mem_flatMap, List.mem_range]

theorem mem_tcEdges {adj : List (List ℕ)} {e : ℕ × ℕ} :
    e ∈ tcEdges adj ↔
      ∃ u < adj.length, ∃ w ∈ adj.getD u [], e = (min u w, max u w) := by
  simp only [tcEdges, List.mem_dedup, List.mem_flatMap, List.mem_range,
    List.mem_map]
  constructor
  · rintro ⟨u, hu, w, hw, rfl⟩
    exact ⟨u, hu, w, hw, rfl⟩
  · rintro ⟨u, hu, w, hw, rfl⟩
    exact ⟨u, hu, w, hw, rfl⟩

theorem tcFormula_wf (adj : List (List ℕ)) (constraints : ℕ → ℕ) :
    WFClauses (tcFormula adj constraints) := by
  intro cl hcl x hx
  rcases mem_tcFormula.mp hcl with ⟨u, hu, hv⟩ | ⟨e, he, hv⟩
  · rw [vertexClauses] at hv
    by_cases hc0 : constraints u ≠ 0
    · rw [if_pos hc0] at hv
      rcases List.mem_cons.mp hv with rfl | hv2
      · simp only [Finset.mem_singleton] at hx
        have hp : 0 < cvar u (constraints u) := cvar_pos (by omega)
        omega
      · obtain ⟨c, hcmem, rfl⟩ := List.mem_map.mp hv2
        simp only [List.mem_filter, List.mem_cons, List.not_mem_nil,
          or_false] at hcmem
        have h1 : 1 ≤ c := by rcases hcmem with ⟨hm, -⟩; omega
        simp only [Finset.mem_singleton] at hx
        have hp : 0 < cvar u c := cvar_pos h1
        omega
    · rw [if_neg hc0] at hv
      have hp1 : 0 < cvar u 1 := cvar_pos (by omega)
      have hp2 : 0 < cvar u 2 := cvar_pos (by omega)
      have hp3 : 0 < cvar u 3 := cvar_pos (by omega)
      simp only [List.mem_cons, List.not_mem_nil, or_false] at hv
      rcases hv with rfl | rfl | rfl | rfl <;>
        simp only [Finset.mem_insert, Finset.mem_singleton] at hx <;>
        omega
  · rw [edgeClauses] at hv
    obtain ⟨c, hcmem, rfl⟩ := List.mem_map.mp hv
    simp only [List.mem_cons, List.not_mem_nil, or_false] at hcmem
    have h1 : 1 ≤ c := by omega
    have hpa : 0 < cvar e.1 c := cvar_pos h1
    have hpb : 0 < cvar e.2 c := cvar_pos h1
    simp only [Finset.mem_insert, Finset.mem_singleton] at hx
    rcases hx with rfl | rfl <;> omega
theorem valColor_range (v : ℤ → Bool) (u : ℕ) :
    valColor v u = 1 ∨ valColor v u = 2 ∨ valColor v u = 3 := by
  rw [valColor]
  split
  · exact Or.inl rfl
  · split
    · exact Or.inr (Or.inl rfl)
    · exact Or.inr (Or.inr rfl)

theorem colorValuation_cvar (f : ℕ → ℕ) (u c : ℕ) (h1 : 1 ≤ c) (h3 : c ≤ 3) :
    colorValuation f (cvar u c) = decide (f u = c) := by
  rw [colorValuation, cvar]
  have e1 : ((((3 * u + c : ℕ) : ℤ) - 1) / 3).toNat = u := by omega
  have e2 : (((3 * u + c : ℕ) : ℤ) - 3 * ((((3 * u + c : ℕ) : ℤ) - 1) / 3)).toNat
      = c := by omega
  rw [e1, e2]
theorem sat_vertex_values {adj : List (List ℕ)} {constraints : ℕ → ℕ}
    {v : ℤ → Bool} (hcon : ∀ u < adj.length, constraints u ≤ 3)
    (hv : ∀ cl ∈ tcFormula adj constraints, ClauseSat v cl) :
    ∀ u, u < adj.length → v (cvar u (valColor v u)) = true ∧
      (constraints u ≠ 0 → valColor v u = constraints u) := by
  intro u hu
  by_cases hc0 : constraints u ≠ 0
  · have hcolor1 : 1 ≤ constraints u := by omega
    have hcolor3 : constraints u ≤ 3 := hcon u hu
    have hcl1 : ({cvar u (constraints u)} : Clause) ∈ tcFormula adj constraints :=
      mem_tcFormula.mpr (Or.inl ⟨u, hu, by
        rw [vertexClauses, if_pos hc0]; exact List.mem_cons_self _ _⟩)
    have htrue : v (cvar u (constraints u)) = true := by
      obtain ⟨l, hl, he⟩ := hv _ hcl1
      simp only [Finset.mem_singleton] at hl
      subst hl
      rwa [evalLit_pos (cvar_pos hcolor1)] at he
    have hfalse : ∀ c, c ∈ ([1, 2, 3] : List ℕ) → c ≠ constraints u →
        v (cvar u c) = false := by
      intro c hcm hcne
      have h1c : 1 ≤ c := by
        simp only [List.mem_cons, List.not_mem_nil, or_false] at hcm
        omega
      have hclc : ({-cvar u c} : Clause) ∈ tcFormula adj constraints := by
        refine mem_tcFormula.mpr (Or.inl ⟨u, hu, ?_⟩)
        rw [vertexClauses, if_pos hc0]
        refine List.mem_cons_of_mem _ (List.mem_map.mpr ⟨c, ?_, rfl⟩)
        exact List.mem_filter.mpr ⟨hcm, by simpa using hcne⟩
      obtain ⟨l, hl, he⟩ := hv _ hclc
      simp only [Finset.mem_singleton] at hl
      subst hl
      rw [evalLit_neg_of_pos (cvar_pos h1c)] at he
      simpa using he
    have hfu : valColor v u = constraints u := by
      rcases (by omega : constraints u = 1 ∨ constraints u = 2 ∨ constraints u = 3)
        with hc | hc | hc
      · rw [hc] at htrue
        rw [valColor, hc, if_pos htrue]
      · rw [hc] at htrue
        have hf1 : v (cvar u 1) = false := hfalse 1 (by simp) (by omega)
        rw [valColor, hc, if_neg (by simp [hf1]), if_pos htrue]
      · have hf1 : v (cvar u 1) = false := hfalse 1 (by simp) (by omega)
        have hf2 : v (cvar u 2) = false := hfalse 2 (by simp) (by omega)
        rw [valColor, hc, if_neg (by simp [hf1]), if_neg (by simp [hf2])]
    exact ⟨by rw [hfu]; exact htrue, fun _ => hfu⟩
  · have hal : ({cvar u 1, cvar u 2, cvar u 3} : Clause) ∈
        tcFormula adj constraints :=
      mem_tcFormula.mpr (Or.inl ⟨u, hu, by
        rw [vertexClauses, if_neg hc0]; exact List.mem_cons_self _ _⟩)
    refine ⟨?_, fun h => absurd h hc0⟩
    by_cases h1 : v (cvar u 1) = true
    · rw [valColor, if_pos h1]; exact h1
    · by_cases h2 : v (cvar u 2) = true
      · rw [valColor, if_neg h1, if_pos h2]; exact h2
      · rw [valColor, if_neg h1, if_neg h2]
        obtain ⟨l, hl, he⟩ := hv _ hal
        simp only [Finset.mem_insert, Finset.mem_singleton] at hl
        rcases hl with rfl | rfl | rfl
        · rw [evalLit_pos (cvar_pos (by omega))] at he
          exact absurd he h1
        · rw [evalLit_pos (cvar_pos (by omega))] at he
          exact absurd he h2
        · rwa [evalLit_pos (cvar_pos (by omega))] at he

theorem sat_gives_coloring {adj : List (List ℕ)} {constraints : ℕ → ℕ}
    {v : ℤ → Bool}
    (hadj : ∀ u < adj.length, ∀ w ∈ adj.getD u [], w < adj.length ∧ w ≠ u)
    (hcon : ∀ u < adj.length, constraints u ≤ 3)
    (hv : ∀ cl ∈ tcFormula adj constraints, ClauseSat v cl) :
    ProperColoring adj constraints (valColor v) := by
  have hvert := sat_vertex_values hcon hv
  refine ⟨fun u _ => valColor_range v u, fun u hu => (hvert u hu).2, ?_⟩
  intro u hu w hw heq
  obtain ⟨hwlt, hwne⟩ := hadj u hu w hw
  have hedge : (min u w, max u w) ∈ tcEdges adj :=
    mem_tcEdges.mpr ⟨u, hu, w, hw, rfl⟩
  have hrange := valColor_range v u
  have hcl : ({-cvar (min u w) (valColor v u), -cvar (max u w) (valColor v u)} :
      Clause) ∈ tcFormula adj constraints := by
    refine mem_tcFormula.mpr (Or.inr ⟨(min u w, max u w), hedge, ?_⟩)
    rw [edgeClauses]
    exact List.mem_map.mpr ⟨valColor v u, by
      simp only [List.mem_cons]; omega, rfl⟩
  have hmin : v (cvar (min u w) (valColor v u)) = true := by
    rcases Nat.le_total u w with h | h
    · rw [Nat.min_eq_left h]; exact (hvert u hu).1
    · rw [Nat.min_eq_right h, heq]; exact (hvert w hwlt).1
  have hmax : v (cvar (max u w) (valColor v u)) = true := by
    rcases Nat.le_total u w with h | h
    · rw [Nat.max_eq_right h, heq]; exact (hvert w hwlt).1
    · rw [Nat.max_eq_left h]; exact (hvert u hu).1
  obtain ⟨l, hl, he⟩ := hv _ hcl
  simp only [Finset.mem_insert, Finset.mem_singleton] at hl
  have h1c : 1 ≤ valColor v u := by omega
  rcases hl with rfl | rfl
  · rw [evalLit_neg_of_pos (cvar_pos h1c), hmin] at he
    simp at he
  · rw [evalLit_neg_of_pos (cvar_pos h1c), hmax] at he
    simp at he
theorem coloring_gives_sat {adj : List (List ℕ)} {constraints : ℕ → ℕ}
    {f : ℕ → ℕ} (hcon : ∀ u < adj.length, constraints u ≤ 3)
    (hf : ProperColoring adj constraints f) :
    ∀ cl ∈ tcFormula adj constraints, ClauseSat (colorValuation f) cl := by
  obtain ⟨hrange, hagree, hdist⟩ := hf
  intro cl hcl
  rcases mem_tcFormula.mp hcl with ⟨u, hu, hvc⟩ | ⟨e, he, hvc⟩
  · rw [vertexClauses] at hvc
    by_cases hc0 : constraints u ≠ 0
    · rw [if_pos hc0] at hvc
      have h1 : 1 ≤ constraints u := by omega
      have h3 : constraints u ≤ 3 := hcon u hu
      have hfu : f u = constraints u := hagree u hu hc0
      rcases List.mem_cons.mp hvc with rfl | hvc2
      · refine ⟨cvar u (constraints u), Finset.mem_singleton_self _, ?_⟩
        rw [evalLit_pos (cvar_pos h1), colorValuation_cvar f u _ h1 h3]
        simp [hfu]
      · obtain ⟨c, hcmem, rfl⟩ := List.mem_map.mp hvc2
        simp only [List.mem_filter, List.mem_cons, List.not_mem_nil, or_false,
          decide_eq_true_eq] at hcmem
        obtain ⟨hcm, hcne⟩ := hcmem
        have hc1 : 1 ≤ c := by omega
        have hc3 : c ≤ 3 := by omega
        refine ⟨-cvar u c, Finset.mem_singleton_self _, ?_⟩
        rw [evalLit_neg_of_pos (cvar_pos hc1), colorValuation_cvar f u c hc1 hc3]
        simp only [hfu, Bool.not_eq_true', decide_eq_false_iff_not]
        omega
    · rw [if_neg hc0] at hvc
      simp only [List.mem_cons, List.not_mem_nil, or_false] at hvc
      have hr := hrange u hu
      rcases hvc with rfl | rfl | rfl | rfl
      · refine ⟨cvar u (f u), ?_, ?_⟩
        · simp only [Finset.mem_insert, Finset.mem_singleton]
          rcases hr with h | h | h <;> rw [h] <;> simp
        · rw [evalLit_pos (cvar_pos (by omega)),
            colorValuation_cvar f u _ (by omega) (by omega)]
          simp
      · by_cases hf1 : f u = 1
        · refine ⟨-cvar u 2, by simp, ?_⟩
          rw [evalLit_neg_of_pos (cvar_pos (by omega)),
            colorValuation_cvar f u 2 (by omega) (by omega)]
          simp [hf1]
        · refine ⟨-cvar u 1, by simp, ?_⟩
          rw [evalLit_neg_of_pos (cvar_pos (by omega)),
            colorValuation_cvar f u 1 (by omega) (by omega)]
          simp [hf1]
      · by_cases hf1 : f u = 1
        · refine ⟨-cvar u 3, by simp, ?_⟩
          rw [evalLit_neg_of_pos (cvar_pos (by omega)),
            colorValuation_cvar f u 3 (by omega) (by omega)]
          simp [hf1]
        · refine ⟨-cvar u 1, by simp, ?_⟩
          rw [evalLit_neg_of_pos (cvar_pos (by omega)),
            colorValuation_cvar f u 1 (by omega) (by omega)]
          simp [hf1]
      · by_cases hf2 : f u = 2
        · refine ⟨-cvar u 3, by simp, ?_⟩
          rw [evalLit_neg_of_pos (cvar_pos (by omega)),
            colorValuation_cvar f u 3 (by omega) (by omega)]
          simp [hf2]
        · refine ⟨-cvar u 2, by simp, ?_⟩
          rw [evalLit_neg_of_pos (cvar_pos (by omega)),
            colorValuation_cvar f u 2 (by omega) (by omega)]
          simp [hf2]
  · obtain ⟨u, hu, w, hw, rfl⟩ := mem_tcEdges.mp he
    rw [edgeClauses] at hvc
    obtain ⟨c, hcmem, rfl⟩ := List.mem_map.mp hvc
    simp only [List.mem_cons, List.not_mem_nil, or_false] at hcmem
    have hc1 : 1 ≤ c := by omega
    have hc3 : c ≤ 3 := by omega
    have hne : f u ≠ f w := hdist u hu w hw
    have hab : f (min u w) ≠ f (max u w) := by
      rcases Nat.le_total u w with h | h
      · rw [Nat.min_eq_left h, Nat.max_eq_right h]; exact hne
      · rw [Nat.min_eq_right h, Nat.max_eq_left h]; exact hne.symm
    by_cases hfa : f (min u w) = c
    · refine ⟨-cvar (max u w) c, by simp, ?_⟩
      rw [evalLit_neg_of_pos (cvar_pos hc1),
        colorValuation_cvar f _ c hc1 hc3]
      simp only [Bool.not_eq_true', decide_eq_false_iff_not]
      intro hfb
      exact hab (hfa.trans hfb.symm)
    · refine ⟨-cvar (min u w) c, by simp, ?_⟩
      rw [evalLit_neg_of_pos (cvar_pos hc1),
        colorValuation_cvar f _ c hc1 hc3]
      simpa using hfa

/-- C4: `ThreeColoration(adj, constraints).colorable()` returns `true` iff
some total assignment of colors `{1, 2, 3}` to the vertices agrees with the
constraints on their domain and separates the endpoints of every edge.  The
adjacency list is assumed in range and loop-free (a self-loop makes the
Python edge unpacking raise), the constraints take values in `{0, 1, 2, 3}`
with `0` denoting an unconstrained vertex. -/
theorem colorable_iff_proper_coloring (adj : List (List ℕ)) (constraints : ℕ → ℕ)
    (hadj : ∀ u < adj.length, ∀ w ∈ adj.getD u [], w < adj.length ∧ w ≠ u)
    (hcon : ∀ u < adj.length, constraints u ≤ 3) :
    colorable adj constraints = true ↔
      ∃ f, ProperColoring adj constraints f := by
  rw [colorable, dpll_eq_true_iff_sat (tcFormula_wf adj constraints)]
  constructor
  · rintro ⟨v, hv⟩
    exact ⟨valColor v, sat_gives_coloring hadj hcon hv⟩
  · rintro ⟨f, hf⟩
    exact ⟨colorValuation f, coloring_gives_sat hcon hf⟩

theorem colorable_iff_proper_coloring_witness :
    (∀ u < ([[1], [0]] : List (List ℕ)).length,
        ∀ w ∈ ([[1], [0]] : List (List ℕ)).getD u [],
          w < ([[1], [0]] : List (List ℕ)).length ∧ w ≠ u) ∧
      (∀ u < ([[1], [0]] : List (List ℕ)).length, (fun _ => 0) u ≤ 3) ∧
      (colorable [[1], [0]] (fun _ => 0) = true ↔
        ∃ f, ProperColoring [[1], [0]] (fun _ => 0) f) :=
  ⟨by decide, by decide,
    colorable_iff_proper_coloring [[1], [0]] (fun _ => 0) (by decide) (by decide)⟩
